import Mathlib

/-!
# Verification of the binary-classification performance-metrics repository

Shallow embedding of `src/binary.py` (`class test`, method `fit`).

The Python code computes, from a vector of predicted probabilities and a
vector of 0/1 labels:
  * class totals `n0, n1` (line 71),
  * a quantile binning of the probabilities via `pd.qcut(..., q=bins,
    duplicates='drop')` (line 73),
  * per-bin aggregates (`size`, `class1`, `class0`, `odds`, rates,
    remainders, cumulative counts, `abs_difference`) (lines 74-86),
  * the KS statistic `self.ks = t['abs_difference'].max()` (line 95).

Modelling choices, each mirroring the concrete library semantics the code
relies on:
  * Real numbers are embedded as `ℚ` (exact arithmetic); labels as `ℤ`
    (`y_true.sum()` is integer arithmetic in the source).
  * IEEE special values produced by pandas column division are embedded by
    the type `PF` (finite, +inf, -inf, NaN) with pandas' division,
    subtraction, absolute-value and skip-NaN max semantics.
  * `pd.qcut` computes `bins+1` linearly interpolated quantile cut points
    over the sorted data (positions `q*(n-1)`), then, because
    `duplicates='drop'`, replaces them by their unique values — except when
    the cut-point array has length exactly 2 (the `len(bins) != 2` guard in
    `pandas._bins_to_cuts`), i.e. when `bins = 1`, where duplicates are
    kept.  Values are assigned to right-closed intervals by a left-side
    `searchsorted` with `include_lowest=True` (a value equal to the lowest
    edge goes to the first interval); a value whose index lands outside the
    intervals becomes NaN and is dropped by the subsequent `groupby`.
    The quantile edges of a sorted sequence are non-decreasing (proved
    below), so pandas' first-occurrence `unique` coincides with the
    adjacent-duplicate removal `dedupSorted` used here.
  * `groupby('range')` on the qcut categorical enumerates all interval
    categories in ascending order (pandas `observed=False` default), so the
    result table has one row per interval, including empty intervals.
  * The `range` column is embedded by the exact interval edges
    `(lower, upper)`; pandas additionally rounds the displayed breaks to a
    display precision and nudges the very first lower edge down — a purely
    cosmetic relabelling that does not affect bin membership.
  * The two error outcomes of the method are embedded as `FitError`:
    `valueError` is the pandas `ValueError` raised by the `pd.DataFrame`
    constructor on length-mismatched columns (line 72), and `typeError` is
    the `TypeError` raised on the `round_range` path (line 88), where
    `Series.apply` forwards the unexpected keyword `axis=1` to the lambda —
    raised only when the `range` column is non-empty, since `Series.apply`
    on an empty series returns early without calling the function.
    The repository defines no exception classes of its own.
-/

/-- Pandas float value: finite rational, `+inf`, `-inf`, or `NaN`. -/
inductive PF where
  | fin : ℚ → PF
  | pinf : PF
  | ninf : PF
  | nan : PF
deriving DecidableEq, Repr

/-- Pandas column division of two (exact) numbers: IEEE semantics for a
zero denominator, exact rational division otherwise. -/
def pdiv (a b : ℚ) : PF :=
  if b ≠ 0 then PF.fin (a / b)
  else if 0 < a then PF.pinf
  else if a < 0 then PF.ninf
  else PF.nan

/-- IEEE subtraction on pandas float values. -/
def PF.sub : PF → PF → PF
  | PF.nan, _ => PF.nan
  | _, PF.nan => PF.nan
  | PF.fin a, PF.fin b => PF.fin (a - b)
  | PF.pinf, PF.pinf => PF.nan
  | PF.pinf, _ => PF.pinf
  | PF.ninf, PF.ninf => PF.nan
  | PF.ninf, _ => PF.ninf
  | PF.fin _, PF.pinf => PF.ninf
  | PF.fin _, PF.ninf => PF.pinf

/-- IEEE absolute value on pandas float values. -/
def PF.abs : PF → PF
  | PF.fin a => PF.fin |a|
  | PF.pinf => PF.pinf
  | PF.ninf => PF.pinf
  | PF.nan => PF.nan

/-- Binary maximum with pandas `skipna` semantics: `NaN` is an identity,
infinities compare as in IEEE. -/
def pfMax2 : PF → PF → PF
  | PF.nan, x => x
  | x, PF.nan => x
  | PF.pinf, _ => PF.pinf
  | _, PF.pinf => PF.pinf
  | PF.ninf, x => x
  | x, PF.ninf => x
  | PF.fin a, PF.fin b => PF.fin (max a b)

/-- `Series.max()` with default `skipna=True`: maximum of the non-NaN
entries, `NaN` for an empty or all-NaN column. -/
def pfMax : List PF → PF
  | [] => PF.nan
  | a :: t => pfMax2 a (pfMax t)

/-- Integer floor of a rational, `⌊q⌋`, written out so that it evaluates
by kernel reduction. -/
def qfloor (q : ℚ) : ℤ := q.num / q.den

/-- Linearly interpolated quantile of a sorted sequence `s` at probability
`q` (numpy/pandas `interpolation='linear'`): position `q * (n-1)`, value
`s[i] + frac * (s[i+1] - s[i])`. -/
def quantile (s : List ℚ) (q : ℚ) : ℚ :=
  let n := s.length
  let pos : ℚ := q * ((n : ℚ) - 1)
  let i : ℕ := (qfloor pos).toNat
  let a := s.getD i 0
  let b := s.getD (i + 1) a
  a + (pos - (i : ℚ)) * (b - a)

/-- Remove adjacent duplicates from a list.  On a non-decreasing list this
equals pandas' first-occurrence `unique` used by `duplicates='drop'`. -/
def dedupSorted : List ℚ → List ℚ
  | [] => []
  | [a] => [a]
  | a :: b :: t => if a = b then dedupSorted (b :: t) else a :: dedupSorted (b :: t)

/-- Index of the first element of `es` that is `≥ v`
(`numpy.searchsorted(es, v, side='left')`). -/
def searchLeft (es : List ℚ) (v : ℚ) : ℕ :=
  (es.takeWhile fun e => decide (e < v)).length

/-- 0-based bin index assigned to value `v` by `pd.cut` over the edge list
`es`: right-closed intervals, `include_lowest=True` (a value equal to the
first edge is forced into the first interval), out-of-range values become
`none` (pandas NaN). -/
def binIdx (es : List ℚ) (v : ℚ) : Option ℕ :=
  let ids := if es.head? = some v then 1 else searchLeft es v
  if ids = 0 ∨ ids = es.length then none else some (ids - 1)

/-- Number of right-closed intervals determined by an edge list. -/
def nBins (es : List ℚ) : ℕ := es.length - 1

/-- The observations (probability, label) that fall in bin `j`. -/
def ptsInBin (pts : List (ℚ × ℤ)) (es : List ℚ) (j : ℕ) : List (ℚ × ℤ) :=
  pts.filter fun p => decide (binIdx es p.1 = some j)

/-- Per-bin `size` column: number of observations in bin `j`. -/
def sizeB (pts : List (ℚ × ℤ)) (es : List ℚ) (j : ℕ) : ℤ :=
  ((ptsInBin pts es j).length : ℤ)

/-- Per-bin `class1` column: sum of the (0/1) labels in bin `j`. -/
def class1B (pts : List (ℚ × ℤ)) (es : List ℚ) (j : ℕ) : ℤ :=
  ((ptsInBin pts es j).map Prod.snd).sum

/-- Per-bin `class0` column: `size - class1` (line 77). -/
def class0B (pts : List (ℚ × ℤ)) (es : List ℚ) (j : ℕ) : ℤ :=
  sizeB pts es j - class1B pts es j

/-- Sum of `f 0, …, f (n-1)` (a pandas column sum / prefix sum). -/
def listSum (f : ℕ → ℤ) (n : ℕ) : ℤ := ((List.range n).map f).sum

/-- One row of the result table (lines 74-91 of the source).  The `range`
column is embedded by the exact edges `lower`, `upper`. -/
structure Row where
  bin : ℕ
  lower : ℚ
  upper : ℚ
  size : ℤ
  class0 : ℤ
  class1 : ℤ
  odds : PF
  class0_rate : PF
  class1_rate : PF
  remainder_total : ℤ
  remainder_class0 : ℤ
  remainder_class1 : ℤ
  cumulative_class0 : ℤ
  cumulative_class1 : ℤ
  abs_difference : PF
deriving DecidableEq, Repr

/-- Row `j` (0-based) of the result table; the `bin` column is `j+1`
(line 76).  `remainder_*` follow lines 81-83: column total minus the
exclusive prefix sum (`shift(fill_value=0).cumsum()`); `cumulative_*`
follow lines 84-85 (inclusive prefix sums); `abs_difference` follows
line 86. -/
def mkRow (pts : List (ℚ × ℤ)) (es : List ℚ) (n0 n1 : ℤ) (j : ℕ) : Row :=
  { bin := j + 1
    lower := es.getD j 0
    upper := es.getD (j + 1) 0
    size := sizeB pts es j
    class0 := class0B pts es j
    class1 := class1B pts es j
    odds := pdiv ((class0B pts es j : ℚ)) ((class1B pts es j : ℚ))
    class0_rate := pdiv ((class0B pts es j : ℚ)) ((sizeB pts es j : ℚ))
    class1_rate := pdiv ((class1B pts es j : ℚ)) ((sizeB pts es j : ℚ))
    remainder_total := listSum (sizeB pts es) (nBins es) - listSum (sizeB pts es) j
    remainder_class0 := listSum (class0B pts es) (nBins es) - listSum (class0B pts es) j
    remainder_class1 := listSum (class1B pts es) (nBins es) - listSum (class1B pts es) j
    cumulative_class0 := listSum (class0B pts es) (j + 1)
    cumulative_class1 := listSum (class1B pts es) (j + 1)
    abs_difference :=
      PF.abs (PF.sub (pdiv ((listSum (class0B pts es) (j + 1) : ℚ)) ((n0 : ℚ)))
                     (pdiv ((listSum (class1B pts es) (j + 1) : ℚ)) ((n1 : ℚ)))) }

/-- The result table: one row per interval, in ascending interval order
(the `groupby` enumerates every qcut category). -/
def mkTable (pts : List (ℚ × ℤ)) (es : List ℚ) (n0 n1 : ℤ) : List Row :=
  (List.range (nBins es)).map (mkRow pts es n0 n1)

/-- The probabilities in ascending order (`pd.qcut` computes its quantiles
over the sorted values). -/
def sortedProbs (y_proba : List ℚ) : List ℚ :=
  List.insertionSort (fun a b => a ≤ b) y_proba

/-- The `bins+1` raw quantile cut points of line 73, before duplicate
dropping: quantiles at `0, 1/bins, …, bins/bins` of the sorted data. -/
def rawEdges (y_proba : List ℚ) (bins : ℕ) : List ℚ :=
  (List.range (bins + 1)).map fun k : ℕ => quantile (sortedProbs y_proba) ((k : ℚ) / (bins : ℚ))

/-- The deduplicated quantile cut points used by
`pd.qcut(x=y_proba, q=bins, duplicates='drop')` (line 73): the raw cut
points with duplicates dropped, unless the cut-point array has length
exactly 2 (the `len(bins) != 2` guard in pandas `_bins_to_cuts`). -/
def fitEdges (y_proba : List ℚ) (bins : ℕ) : List ℚ :=
  if (rawEdges y_proba bins).length = 2 then rawEdges y_proba bins
  else dedupSorted (rawEdges y_proba bins)

/-- The summary scalars set on the fitted object (lines 92-95). -/
structure Result where
  obs : ℤ
  class0 : ℤ
  class1 : ℤ
  ks : PF
  table : List Row
deriving DecidableEq, Repr

/-- The two error outcomes of `fit`: the pandas `ValueError` from the
`pd.DataFrame` constructor on mismatched column lengths (line 72), and the
`TypeError` on the `round_range = True` path (line 88), where
`Series.apply` forwards the unexpected keyword argument `axis=1` to the
one-argument lambda.  The `TypeError` occurs only when the lambda is
actually invoked, i.e. when the `range` column is non-empty:
`Series.apply` on an empty series returns an empty result early without
ever calling the function. -/
inductive FitError where
  | valueError : FitError
  | typeError : FitError
deriving DecidableEq, Repr

/-- The value of the fitted attributes for an input that completes:
`n0 = len(y_proba) - y_true.sum()`, `n1 = y_true.sum()` (line 71),
`obs = n0 + n1`, `ks = t['abs_difference'].max()` (lines 92-95). -/
def fitResult (y_proba : List ℚ) (y_true : List ℤ) (bins : ℕ) : Result :=
  let n1 : ℤ := y_true.sum
  let n0 : ℤ := (y_proba.length : ℤ) - n1
  let pts := y_proba.zip y_true
  let es := fitEdges y_proba bins
  { obs := n0 + n1
    class0 := n0
    class1 := n1
    ks := pfMax ((mkTable pts es n0 n1).map Row.abs_difference)
    table := mkTable pts es n0 n1 }

/-- The `fit` method.  Mismatched input lengths fail at the `pd.DataFrame`
constructor (line 72); `round_range=True` on a non-empty table fails with
a `TypeError` at line 88 after the table is computed but before any
attribute is assigned, so no result escapes.  When the table is empty,
`Series.apply` never calls the lambda (empty-series early return), the
discarded line-88 result changes nothing, and the attributes of
`fitResult` are set as usual; likewise for `round_range=False`. -/
def fit (y_proba : List ℚ) (y_true : List ℤ) (bins : ℕ) (round_range : Bool) :
    Except FitError Result :=
  if y_proba.length ≠ y_true.length then Except.error FitError.valueError
  else if round_range = true ∧ (fitResult y_proba y_true bins).table ≠ [] then
    Except.error FitError.typeError
  else Except.ok (fitResult y_proba y_true bins)

instance {ε α : Type} [DecidableEq ε] [DecidableEq α] : DecidableEq (Except ε α) := fun a b =>
  match a, b with
  | .ok x, .ok y =>
    if h : x = y then .isTrue (h ▸ rfl) else .isFalse fun hc => h (Except.ok.inj hc)
  | .error x, .error y =>
    if h : x = y then .isTrue (h ▸ rfl) else .isFalse fun hc => h (Except.error.inj hc)
  | .ok _, .error _ => .isFalse fun hc => Except.noConfusion hc
  | .error _, .ok _ => .isFalse fun hc => Except.noConfusion hc

/-- Valid input in the sense of the specification: equal non-zero lengths,
0/1 labels, both classes present. -/
def ValidInput (ps : List ℚ) (ls : List ℤ) : Prop :=
  ps.length = ls.length ∧ ps ≠ [] ∧ (∀ l ∈ ls, l = 0 ∨ l = 1) ∧
    (0 : ℤ) ∈ ls ∧ (1 : ℤ) ∈ ls

instance (ps : List ℚ) (ls : List ℤ) : Decidable (ValidInput ps ls) := by
  unfold ValidInput; infer_instance

/-- The probabilities take at least two distinct values. -/
def NotAllEqual (ps : List ℚ) : Prop := ∃ a ∈ ps, ∃ b ∈ ps, a ≠ b

instance (ps : List ℚ) : Decidable (NotAllEqual ps) := by
  unfold NotAllEqual; infer_instance

unseal Rat.add Rat.sub Rat.mul Rat.inv in
example : fit [(1 : ℚ)/10, 2/10, 8/10, 9/10] [0, 0, 1, 1] 2 false =
    Except.ok (fitResult [(1 : ℚ)/10, 2/10, 8/10, 9/10] [0, 0, 1, 1] 2) := by rfl

unseal Rat.add Rat.sub Rat.mul Rat.inv in
example : (fitResult [(1 : ℚ)/10, 2/10, 8/10, 9/10] [0, 0, 1, 1] 2).ks = PF.fin 1 := by decide

unseal Rat.add Rat.sub Rat.mul Rat.inv in
example : (fitResult [(1 : ℚ)/2, 1/2] [0, 1] 10).table = [] := by decide

unseal Rat.add Rat.sub Rat.mul Rat.inv in
example : (fitResult [(1 : ℚ)/2, 1/2] [0, 1] 10).ks = PF.nan := by decide

unseal Rat.add Rat.sub Rat.mul Rat.inv in
example : ((fitResult [(1 : ℚ)/2, 1/2] [0, 1] 1).table.map Row.size) = [2] := by decide

unseal Rat.add Rat.sub Rat.mul Rat.inv in
example : (fitResult [(1 : ℚ)/2, 1/2] [0, 1] 1).ks = PF.fin 0 := by decide

/-! ## Basic lemmas about the pandas value type -/

theorem pdiv_of_ne_zero {a b : ℚ} (hb : b ≠ 0) : pdiv a b = PF.fin (a / b) := by
  simp [pdiv, hb]

theorem pdiv_zero_zero : pdiv 0 0 = PF.nan := by simp [pdiv]

theorem PF.sub_nan_right (x : PF) : PF.sub x PF.nan = PF.nan := by
  cases x <;> rfl

theorem pfMax_eq_nan {L : List PF} (h : ∀ x ∈ L, x = PF.nan) : pfMax L = PF.nan := by
  induction L with
  | nil => rfl
  | cons a t ih =>
    have ha : a = PF.nan := h a (List.mem_cons_self a t)
    have ht : pfMax t = PF.nan := ih fun x hx => h x (List.mem_cons_of_mem a hx)
    simp [pfMax, ha, ht, pfMax2]

theorem pfMax2_fin_nan (q : ℚ) : pfMax2 (PF.fin q) PF.nan = PF.fin q := rfl

theorem pfMax_fin_spec : ∀ (L : List PF), (∀ x ∈ L, ∃ q, x = PF.fin q) → L ≠ [] →
    ∃ q, pfMax L = PF.fin q ∧ PF.fin q ∈ L ∧ ∀ p, PF.fin p ∈ L → p ≤ q := by
  intro L
  induction L with
  | nil => intro _ h; exact absurd rfl h
  | cons a t ih =>
    intro hfin _
    obtain ⟨qa, hqa⟩ := hfin a (List.mem_cons_self a t)
    cases t with
    | nil =>
      refine ⟨qa, ?_, ?_, ?_⟩
      · simp [pfMax, hqa, pfMax2]
      · simp [hqa]
      · intro p hp
        simp at hp
        rw [hqa] at hp
        exact le_of_eq (PF.fin.inj hp.symm).symm
    | cons b t' =>
      obtain ⟨q', hmax', hmem', hbd'⟩ :=
        ih (fun x hx => hfin x (List.mem_cons_of_mem a hx)) (by simp)
      refine ⟨max qa q', ?_, ?_, ?_⟩
      · simp [pfMax] at hmax' ⊢
        rw [hmax', hqa]
        rfl
      · rcases max_choice qa q' with hc | hc
        · rw [hc, ← hqa]; exact List.mem_cons_self a _
        · rw [hc]; exact List.mem_cons_of_mem a hmem'
      · intro p hp
        rcases List.mem_cons.mp hp with hp | hp
        · rw [hqa] at hp
          exact le_max_of_le_left (le_of_eq (PF.fin.inj hp.symm).symm)
        · exact le_max_of_le_right (hbd' p hp)

/-! ## Lemmas about prefix sums of columns -/

theorem listSum_zero (f : ℕ → ℤ) : listSum f 0 = 0 := rfl

theorem listSum_succ (f : ℕ → ℤ) (n : ℕ) :
    listSum f (n + 1) = listSum f n + f n := by
  simp [listSum, List.range_succ]

theorem listSum_congr {f g : ℕ → ℤ} {n : ℕ} (h : ∀ k, k < n → f k = g k) :
    listSum f n = listSum g n := by
  induction n with
  | zero => rfl
  | succ m ih =>
    rw [listSum_succ, listSum_succ, ih fun k hk => h k (Nat.lt_succ_of_lt hk),
      h m (Nat.lt_succ_self m)]

theorem listSum_nonneg {f : ℕ → ℤ} {n : ℕ} (h : ∀ k, k < n → 0 ≤ f k) :
    0 ≤ listSum f n := by
  induction n with
  | zero => exact le_refl 0
  | succ m ih =>
    rw [listSum_succ]
    exact add_nonneg (ih fun k hk => h k (Nat.lt_succ_of_lt hk)) (h m (Nat.lt_succ_self m))

theorem listSum_mono {f : ℕ → ℤ} {m n : ℕ} (hmn : m ≤ n)
    (h : ∀ k, k < n → 0 ≤ f k) : listSum f m ≤ listSum f n := by
  induction n with
  | zero => rw [Nat.le_zero.mp hmn]
  | succ K ih =>
    rcases Nat.lt_or_ge m (K + 1) with hlt | hge
    · have h1 : listSum f m ≤ listSum f K :=
        ih (Nat.lt_succ_iff.mp hlt) fun k hk => h k (Nat.lt_succ_of_lt hk)
      rw [listSum_succ]
      exact le_trans h1 (le_add_of_nonneg_right (h K (Nat.lt_succ_self K)))
    · rw [Nat.le_antisymm hmn hge]

theorem listSum_add (f g : ℕ → ℤ) (n : ℕ) :
    listSum (fun k => f k + g k) n = listSum f n + listSum g n := by
  induction n with
  | zero => rfl
  | succ m ih => rw [listSum_succ, listSum_succ, listSum_succ, ih]; ring

theorem listSum_if_add (S : ℕ → ℤ) (c : ℤ) (j0 K : ℕ) (h : j0 < K) :
    listSum (fun j => if j = j0 then c + S j else S j) K = c + listSum S K := by
  induction K with
  | zero => exact absurd h (Nat.not_lt_zero j0)
  | succ m ih =>
    rw [listSum_succ, listSum_succ]
    rcases Nat.lt_or_ge j0 m with hlt | hge
    · rw [ih hlt, if_neg (Nat.ne_of_gt hlt)]; ring
    · have hj0 : j0 = m := Nat.le_antisymm (Nat.lt_succ_iff.mp h) hge
      subst hj0
      rw [if_pos rfl,
        @listSum_congr (fun j => if j = j0 then c + S j else S j) S j0
          (fun k hk => if_neg (Nat.ne_of_lt hk))]
      ring

/-! ## Lemmas about tables built as maps over `List.range` -/

theorem length_range_map {α : Type} (f : ℕ → α) (n : ℕ) :
    ((List.range n).map f).length = n := by simp

theorem getLast?_range_map {α : Type} (f : ℕ → α) (n : ℕ) (h : 0 < n) :
    ((List.range n).map f).getLast? = some (f (n - 1)) := by
  obtain ⟨m, rfl⟩ : ∃ m, n = m + 1 := ⟨n - 1, (Nat.succ_pred_eq_of_pos h).symm⟩
  rw [List.range_succ, List.map_append]
  simp

theorem mem_range_map {α : Type} {f : ℕ → α} {n : ℕ} {x : α} :
    x ∈ (List.range n).map f ↔ ∃ j, j < n ∧ f j = x := by
  simp [List.mem_map, List.mem_range]

theorem chain'_range_map {α : Type} (R : α → α → Prop) (f : ℕ → α) (n : ℕ)
    (h : ∀ k, k + 1 < n → R (f k) (f (k + 1))) :
    List.Chain' R ((List.range n).map f) := by
  induction n with
  | zero => simp
  | succ m ih =>
    rw [List.range_succ, List.map_append]
    cases m with
    | zero => simp
    | succ m' =>
      apply List.Chain'.append
      · exact ih fun k hk => h k (Nat.lt_succ_of_lt hk)
      · simp
      · intro x hx y hy
        rw [List.getLast?_eq_getLast _ (by simp), Option.mem_def, Option.some_inj] at hx
        simp at hy
        subst hy
        have hxval : x = f m' := by
          rw [← hx]
          rw [List.getLast_eq_get]
          simp
        rw [hxval]
        exact h m' (Nat.lt_succ_self _)

/-! ## The partition lemma: summing a weight over all bins -/

theorem map_one_sum {α : Type} (l : List α) :
    ((l.map fun _ => (1 : ℤ)).sum : ℤ) = (l.length : ℤ) := by
  induction l with
  | nil => rfl
  | cons a t ih => simp [ih]; omega

theorem listSum_partition (pts : List (ℚ × ℤ)) (g : ℚ × ℤ → Option ℕ) (K : ℕ)
    (w : ℚ × ℤ → ℤ) (h : ∀ p ∈ pts, ∃ j, g p = some j ∧ j < K) :
    listSum (fun j => ((pts.filter fun p => decide (g p = some j)).map w).sum) K =
      (pts.map w).sum := by
  induction pts with
  | nil =>
    simp only [List.filter_nil, List.map_nil, List.sum_nil]
    clear h
    induction K with
    | zero => rfl
    | succ m ihm => rw [listSum_succ, ihm]; rfl
  | cons p t ih =>
    obtain ⟨j0, hj0, hj0K⟩ := h p (List.mem_cons_self p t)
    have hpt : ∀ j, (((p :: t).filter fun p' => decide (g p' = some j)).map w).sum =
        if j = j0 then w p + ((t.filter fun p' => decide (g p' = some j)).map w).sum
        else ((t.filter fun p' => decide (g p' = some j)).map w).sum := by
      intro j
      by_cases hj : j = j0
      · subst hj
        have hd : decide (g p = some j) = true := by simp [hj0]
        rw [List.filter_cons, if_pos hd, List.map_cons, List.sum_cons, if_pos rfl]
      · have hne : ¬ (g p = some j) := by
          rw [hj0]
          exact fun hc => hj (Option.some_inj.mp hc).symm
        have hd : ¬ (decide (g p = some j) = true) := by simpa using hne
        rw [List.filter_cons, if_neg hd, if_neg hj]
    rw [listSum_congr (fun k _ => hpt k), listSum_if_add _ _ _ _ hj0K,
      ih fun q hq => h q (List.mem_cons_of_mem p hq), List.map_cons, List.sum_cons]

/-! ## Sorted sequences: head and last elements bound the members -/

theorem sorted_head_le {l : List ℚ} (h : List.Sorted (· ≤ ·) l) {a x : ℚ}
    (hh : l.head? = some a) (hx : x ∈ l) : a ≤ x := by
  cases l with
  | nil => cases hx
  | cons b t =>
    rw [List.head?_cons, Option.some_inj] at hh
    subst hh
    rcases List.mem_cons.mp hx with rfl | hxt
    · exact le_refl x
    · exact (List.sorted_cons.mp h).1 x hxt

theorem sorted_le_getLast {l : List ℚ} (h : List.Sorted (· ≤ ·) l) {a x : ℚ}
    (hh : l.getLast? = some a) (hx : x ∈ l) : x ≤ a := by
  induction l with
  | nil => cases hx
  | cons b t ih =>
    cases t with
    | nil =>
      simp at hh hx
      rw [hh] at hx
      exact le_of_eq hx
    | cons c t' =>
      rw [List.getLast?_cons_cons] at hh
      have hat : a ∈ c :: t' := List.mem_of_mem_getLast? hh
      rcases List.mem_cons.mp hx with rfl | hxt
      · exact (List.sorted_cons.mp h).1 a hat
      · exact ih (List.sorted_cons.mp h).2 hh hxt

theorem getLast?_mem_self {l : List ℚ} {a : ℚ} (h : l.getLast? = some a) : a ∈ l :=
  List.mem_of_mem_getLast? h

/-! ## The interpolated quantile: endpoints and monotonicity -/

theorem qfloor_eq_floor (q : ℚ) : qfloor q = ⌊q⌋ := Rat.floor_def.symm

theorem getD_of_lt (l : List ℚ) (d : ℚ) {i : ℕ} (h : i < l.length) :
    l.getD i d = l.get ⟨i, h⟩ := by
  rw [List.getD_eq_getElem?_getD, List.getElem?_eq_getElem h]
  rfl

theorem getD_of_ge (l : List ℚ) (d : ℚ) {i : ℕ} (h : l.length ≤ i) :
    l.getD i d = d := by
  rw [List.getD_eq_getElem?_getD, List.getElem?_eq_none h]
  rfl

theorem sorted_getD_mono {s : List ℚ} (hs : List.Sorted (· ≤ ·) s) {i j : ℕ}
    (hij : i ≤ j) (hj : j < s.length) (d d' : ℚ) : s.getD i d ≤ s.getD j d' := by
  have hi : i < s.length := Nat.lt_of_le_of_lt hij hj
  rw [getD_of_lt s d hi, getD_of_lt s d' hj]
  exact hs.rel_get_of_le (by exact hij)

theorem quantile_zero (s : List ℚ) : quantile s 0 = s.getD 0 0 := by
  have h0 : (0 : ℚ) * ((s.length : ℚ) - 1) = 0 := zero_mul _
  simp only [quantile, h0, qfloor_eq_floor, Int.floor_zero, Int.toNat_zero,
    Nat.cast_zero, sub_zero, zero_mul, add_zero]

theorem quantile_one {s : List ℚ} (hne : s ≠ []) :
    quantile s 1 = s.getD (s.length - 1) 0 := by
  have hn : 1 ≤ s.length := List.length_pos.mpr hne
  have hpos : (1 : ℚ) * ((s.length : ℚ) - 1) = ((s.length - 1 : ℕ) : ℚ) := by
    rw [one_mul]
    push_cast [hn]
    ring
  simp only [quantile, hpos, qfloor_eq_floor, Int.floor_natCast, Int.toNat_natCast,
    sub_self, zero_mul, add_zero]

theorem quantile_mono {s : List ℚ} (hs : List.Sorted (· ≤ ·) s) (hne : s ≠ [])
    {q q2 : ℚ} (h0 : 0 ≤ q) (hqq : q ≤ q2) (h1 : q2 ≤ 1) :
    quantile s q ≤ quantile s q2 := by
  have hn : 1 ≤ s.length := List.length_pos.mpr hne
  have hn1 : (0 : ℚ) ≤ (s.length : ℚ) - 1 := by
    have h : (1 : ℚ) ≤ (s.length : ℚ) := by exact_mod_cast hn
    linarith
  have hpos0 : 0 ≤ q * ((s.length : ℚ) - 1) := mul_nonneg h0 hn1
  have hpos02 : 0 ≤ q2 * ((s.length : ℚ) - 1) := mul_nonneg (le_trans h0 hqq) hn1
  have hple : q * ((s.length : ℚ) - 1) ≤ q2 * ((s.length : ℚ) - 1) :=
    mul_le_mul_of_nonneg_right hqq hn1
  have hp2top : q2 * ((s.length : ℚ) - 1) ≤ (s.length : ℚ) - 1 := by
    calc q2 * ((s.length : ℚ) - 1) ≤ 1 * ((s.length : ℚ) - 1) :=
          mul_le_mul_of_nonneg_right h1 hn1
    _ = (s.length : ℚ) - 1 := one_mul _
  have hfl0 : 0 ≤ ⌊q * ((s.length : ℚ) - 1)⌋ := Int.floor_nonneg.mpr hpos0
  have hfl02 : 0 ≤ ⌊q2 * ((s.length : ℚ) - 1)⌋ := Int.floor_nonneg.mpr hpos02
  rw [quantile, quantile]
  set n := s.length with hndef
  set pos := q * ((n : ℚ) - 1) with hposdef
  set pos2 := q2 * ((n : ℚ) - 1) with hpos2def
  set i : ℕ := (qfloor pos).toNat with hidef
  set i2 : ℕ := (qfloor pos2).toNat with hi2def
  have hiz : (i : ℤ) = ⌊pos⌋ := by rw [hidef, qfloor_eq_floor]; exact Int.toNat_of_nonneg hfl0
  have hiz2 : (i2 : ℤ) = ⌊pos2⌋ := by rw [hi2def, qfloor_eq_floor]; exact Int.toNat_of_nonneg hfl02
  have hi_le_pos : (i : ℚ) ≤ pos := by
    have h := Int.floor_le pos
    rw [← hiz] at h
    exact_mod_cast h
  have hi_le_pos2 : (i2 : ℚ) ≤ pos2 := by
    have h := Int.floor_le pos2
    rw [← hiz2] at h
    exact_mod_cast h
  have hpos_lt : pos < (i : ℚ) + 1 := by
    have h := Int.lt_floor_add_one pos
    rw [← hiz] at h
    exact_mod_cast h
  have hpos_lt2 : pos2 < (i2 : ℚ) + 1 := by
    have h := Int.lt_floor_add_one pos2
    rw [← hiz2] at h
    exact_mod_cast h
  have hii2 : i ≤ i2 := by
    rw [hidef, hi2def, qfloor_eq_floor, qfloor_eq_floor]
    exact Int.toNat_le_toNat (Int.floor_le_floor hple)
  have hi2n : i2 < n := by
    have h2 : (⌊pos2⌋ : ℚ) ≤ (n : ℚ) - 1 := le_trans (Int.floor_le pos2) hp2top
    have h3 : ⌊pos2⌋ ≤ (n : ℤ) - 1 := by exact_mod_cast h2
    omega
  have hin : i < n := Nat.lt_of_le_of_lt hii2 hi2n
  set a := s.getD i 0 with hadef
  set b := s.getD (i + 1) a with hbdef
  set a2 := s.getD i2 0 with ha2def
  set b2 := s.getD (i2 + 1) a2 with hb2def
  have hab : a ≤ b := by
    rcases Nat.lt_or_ge (i + 1) n with hlt | hge
    · exact sorted_getD_mono hs (Nat.le_succ i) hlt 0 a
    · rw [hbdef, getD_of_ge s a hge]
  have hab2 : a2 ≤ b2 := by
    rcases Nat.lt_or_ge (i2 + 1) n with hlt | hge
    · exact sorted_getD_mono hs (Nat.le_succ i2) hlt 0 a2
    · rw [hb2def, getD_of_ge s a2 hge]
  rcases Nat.lt_or_ge i i2 with hlt | hge
  · -- the two positions fall in different segments: go through `b ≤ a2`
    have hba2 : b ≤ a2 := sorted_getD_mono hs hlt hi2n a 0
    have hv_le_b : a + (pos - (i : ℚ)) * (b - a) ≤ b := by
      nlinarith [mul_nonneg (sub_nonneg.mpr hi_le_pos) (sub_nonneg.mpr hab),
        mul_nonneg (sub_nonneg.mpr (le_of_lt hpos_lt)) (sub_nonneg.mpr hab)]
    have ha2_le_v2 : a2 ≤ a2 + (pos2 - (i2 : ℚ)) * (b2 - a2) :=
      le_add_of_nonneg_right
        (mul_nonneg (sub_nonneg.mpr hi_le_pos2) (sub_nonneg.mpr hab2))
    exact le_trans hv_le_b (le_trans hba2 ha2_le_v2)
  · -- same segment
    have heq : i = i2 := Nat.le_antisymm hii2 hge
    have ha2a : a2 = a := by rw [ha2def, hadef, ← heq]
    have hb2b : b2 = b := by rw [hb2def, hbdef, ← heq, ha2a]
    have hci : ((i2 : ℕ) : ℚ) = (i : ℚ) := by exact_mod_cast heq.symm
    rw [ha2a, hb2b, hci]
    nlinarith [mul_le_mul_of_nonneg_right (sub_le_sub_right hple (i : ℚ)) (sub_nonneg.mpr hab)]

/-! ## Duplicate-dropping of the cut points -/

theorem dedupSorted_ne_nil : ∀ {l : List ℚ}, l ≠ [] → dedupSorted l ≠ []
  | [], h => absurd rfl h
  | [_], _ => by simp [dedupSorted]
  | a :: b :: t, _ => by
    rw [dedupSorted]
    by_cases hab : a = b
    · rw [if_pos hab]
      exact dedupSorted_ne_nil (by simp)
    · rw [if_neg hab]
      simp

theorem dedupSorted_head? : ∀ (l : List ℚ), (dedupSorted l).head? = l.head?
  | [] => rfl
  | [_] => rfl
  | a :: b :: t => by
    rw [dedupSorted]
    by_cases hab : a = b
    · rw [if_pos hab, dedupSorted_head? (b :: t)]
      simp [hab]
    · rw [if_neg hab]
      rfl

theorem dedupSorted_getLast? : ∀ (l : List ℚ), (dedupSorted l).getLast? = l.getLast?
  | [] => rfl
  | [_] => rfl
  | a :: b :: t => by
    rw [dedupSorted, List.getLast?_cons_cons]
    by_cases hab : a = b
    · rw [if_pos hab]
      exact dedupSorted_getLast? (b :: t)
    · rw [if_neg hab]
      have hne : dedupSorted (b :: t) ≠ [] := dedupSorted_ne_nil (by simp)
      obtain ⟨c, l', hc⟩ : ∃ c l', dedupSorted (b :: t) = c :: l' := by
        cases hd : dedupSorted (b :: t) with
        | nil => exact absurd hd hne
        | cons c l' => exact ⟨c, l', rfl⟩
      rw [hc, List.getLast?_cons_cons, ← hc]
      exact dedupSorted_getLast? (b :: t)

theorem dedupSorted_length_le : ∀ (l : List ℚ), (dedupSorted l).length ≤ l.length
  | [] => le_refl 0
  | [_] => le_refl 1
  | a :: b :: t => by
    rw [dedupSorted]
    by_cases hab : a = b
    · rw [if_pos hab]
      exact le_trans (dedupSorted_length_le (b :: t)) (by simp)
    · rw [if_neg hab]
      simpa using dedupSorted_length_le (b :: t)

theorem dedupSorted_chain_lt : ∀ {l : List ℚ},
    List.Chain' (· ≤ ·) l → List.Chain' (· < ·) (dedupSorted l)
  | [], _ => by simp [dedupSorted]
  | [_], _ => by simp [dedupSorted]
  | a :: b :: t, h => by
    obtain ⟨hab, htail⟩ := List.chain'_cons.mp h
    rw [dedupSorted]
    by_cases heq : a = b
    · rw [if_pos heq]
      exact dedupSorted_chain_lt htail
    · rw [if_neg heq]
      rw [List.chain'_cons']
      refine ⟨?_, dedupSorted_chain_lt htail⟩
      intro y hy
      rw [dedupSorted_head? (b :: t), List.head?_cons, Option.mem_def,
        Option.some_inj] at hy
      rw [← hy]
      exact lt_of_le_of_ne hab heq

/-! ## The quantile cut points of the sorted probabilities -/

theorem sortedProbs_sorted (ps : List ℚ) : List.Sorted (· ≤ ·) (sortedProbs ps) :=
  List.sorted_insertionSort _ ps

theorem sortedProbs_perm (ps : List ℚ) : (sortedProbs ps).Perm ps :=
  List.perm_insertionSort _ ps

theorem mem_sortedProbs {ps : List ℚ} {x : ℚ} : x ∈ sortedProbs ps ↔ x ∈ ps :=
  (sortedProbs_perm ps).mem_iff

theorem sortedProbs_ne_nil {ps : List ℚ} (h : ps ≠ []) : sortedProbs ps ≠ [] := by
  intro hc
  apply h
  have := (sortedProbs_perm ps).length_eq
  rw [hc] at this
  exact List.length_eq_zero.mp this.symm

theorem head?_eq_getD {s : List ℚ} (h : s ≠ []) : s.head? = some (s.getD 0 0) := by
  cases s with
  | nil => exact absurd rfl h
  | cons a t => rfl

theorem getLast?_eq_getD {s : List ℚ} (h : s ≠ []) :
    s.getLast? = some (s.getD (s.length - 1) 0) := by
  have hlen : 0 < s.length := List.length_pos.mpr h
  have hlt : s.length - 1 < s.length := by omega
  rw [List.getLast?_eq_getElem? s, List.getElem?_eq_getElem hlt, getD_of_lt s 0 hlt]
  rfl

theorem rawEdges_length (ps : List ℚ) (bins : ℕ) :
    (rawEdges ps bins).length = bins + 1 := by
  simp [rawEdges]

theorem rawEdges_head? (ps : List ℚ) (bins : ℕ) :
    (rawEdges ps bins).head? = some (quantile (sortedProbs ps) 0) := by
  rw [rawEdges, List.range_succ_eq_map, List.map_cons, List.head?_cons]
  norm_num

theorem rawEdges_getLast? (ps : List ℚ) {bins : ℕ} (hbins : 1 ≤ bins) :
    (rawEdges ps bins).getLast? = some (quantile (sortedProbs ps) 1) := by
  rw [rawEdges, getLast?_range_map _ _ (by omega)]
  have hbne : bins ≠ 0 := by omega
  have hb : ((bins : ℚ)) ≠ 0 := by exact_mod_cast hbne
  have : ((bins + 1 - 1 : ℕ) : ℚ) / (bins : ℚ) = 1 := by
    rw [Nat.add_sub_cancel]
    exact div_self hb
  rw [this]

theorem rawEdges_chain_le {ps : List ℚ} (hne : ps ≠ []) {bins : ℕ} (hbins : 1 ≤ bins) :
    List.Chain' (· ≤ ·) (rawEdges ps bins) := by
  apply chain'_range_map
  intro k hk
  have hbpos : 0 < bins := by omega
  have hb : (0 : ℚ) < (bins : ℚ) := by exact_mod_cast hbpos
  apply quantile_mono (sortedProbs_sorted ps) (sortedProbs_ne_nil hne)
  · exact div_nonneg (by exact_mod_cast Nat.zero_le k) (le_of_lt hb)
  · have hkk : ((k : ℕ) : ℚ) ≤ ((k + 1 : ℕ) : ℚ) := by push_cast; linarith
    exact (div_le_div_right hb).mpr hkk
  · rw [div_le_one hb]
    exact_mod_cast Nat.lt_succ_iff.mp hk

/-! ## The cut points returned by `fitEdges` -/

theorem two_le_length_of_head_last {l : List ℚ} {x y : ℚ} (hh : l.head? = some x)
    (hl : l.getLast? = some y) (hxy : x ≠ y) : 2 ≤ l.length := by
  cases l with
  | nil => cases hh
  | cons a t =>
    cases t with
    | nil =>
      simp at hh hl
      exact absurd (by rw [← hh, ← hl]) hxy
    | cons b t' => simp

theorem eq_pair_of_length_two {l : List ℚ} (h : l.length = 2) :
    ∃ a b, l = [a, b] := by
  cases l with
  | nil => simp at h
  | cons a t =>
    cases t with
    | nil => simp at h
    | cons b t' =>
      cases t' with
      | nil => exact ⟨a, b, rfl⟩
      | cons c t'' => simp at h

theorem fitEdges_spec {ps : List ℚ} {bins : ℕ} (hbins : 1 ≤ bins) (hne : ps ≠ [])
    (hnae : NotAllEqual ps) :
    List.Chain' (· < ·) (fitEdges ps bins) ∧ 2 ≤ (fitEdges ps bins).length ∧
      (fitEdges ps bins).length ≤ bins + 1 ∧
      ∃ e0 eL, (fitEdges ps bins).head? = some e0 ∧
        (fitEdges ps bins).getLast? = some eL ∧ e0 < eL ∧
        ∀ v ∈ ps, e0 ≤ v ∧ v ≤ eL := by
  have hsne : sortedProbs ps ≠ [] := sortedProbs_ne_nil hne
  have hss : List.Sorted (· ≤ ·) (sortedProbs ps) := sortedProbs_sorted ps
  set s := sortedProbs ps with hsdef
  set e0 := s.getD 0 0 with he0def
  set eL := s.getD (s.length - 1) 0 with heLdef
  have hh : s.head? = some e0 := head?_eq_getD hsne
  have hl : s.getLast? = some eL := getLast?_eq_getD hsne
  have hbound : ∀ v ∈ ps, e0 ≤ v ∧ v ≤ eL := by
    intro v hv
    have hvs : v ∈ s := mem_sortedProbs.mpr hv
    exact ⟨sorted_head_le hss hh hvs, sorted_le_getLast hss hl hvs⟩
  have he0L : e0 < eL := by
    obtain ⟨a, ha, b, hb, hab⟩ := hnae
    have h1 := hbound a ha
    have h2 := hbound b hb
    rcases lt_or_le e0 eL with h | h
    · exact h
    · have hae : a = e0 := le_antisymm (le_trans h1.2 h) h1.1
      have hbe : b = e0 := le_antisymm (le_trans h2.2 h) h2.1
      exact absurd (hae.trans hbe.symm) hab
  have hrh : (rawEdges ps bins).head? = some e0 := by
    rw [rawEdges_head?, quantile_zero]
  have hrl : (rawEdges ps bins).getLast? = some eL := by
    rw [rawEdges_getLast? ps hbins, quantile_one hsne]
  have hrc : List.Chain' (· ≤ ·) (rawEdges ps bins) := rawEdges_chain_le hne hbins
  by_cases h2 : (rawEdges ps bins).length = 2
  · have hfe : fitEdges ps bins = rawEdges ps bins := by rw [fitEdges, if_pos h2]
    obtain ⟨a, b, hab⟩ := eq_pair_of_length_two h2
    have ha : a = e0 := by
      rw [hab] at hrh
      simpa using hrh
    have hb : b = eL := by
      rw [hab] at hrl
      simpa using hrl
    refine ⟨?_, ?_, ?_, e0, eL, ?_, ?_, he0L, hbound⟩
    · rw [hfe, hab, ha, hb]
      simp [he0L]
    · rw [hfe, h2]
    · rw [hfe, rawEdges_length]
    · rw [hfe, hrh]
    · rw [hfe, hrl]
  · have hfe : fitEdges ps bins = dedupSorted (rawEdges ps bins) := by
      rw [fitEdges, if_neg h2]
    have hdh : (fitEdges ps bins).head? = some e0 := by
      rw [hfe, dedupSorted_head?, hrh]
    have hdl : (fitEdges ps bins).getLast? = some eL := by
      rw [hfe, dedupSorted_getLast?, hrl]
    refine ⟨?_, ?_, ?_, e0, eL, hdh, hdl, he0L, hbound⟩
    · rw [hfe]
      exact dedupSorted_chain_lt hrc
    · exact two_le_length_of_head_last hdh hdl (ne_of_lt he0L)
    · rw [hfe]
      exact le_trans (dedupSorted_length_le _) (le_of_eq (rawEdges_length ps bins))

/-! ## Totality of the bin assignment -/

theorem binIdx_total {es : List ℚ} {e0 eL : ℚ} (hh : es.head? = some e0)
    (hl : es.getLast? = some eL) (hlen : 2 ≤ es.length) {v : ℚ}
    (hv0 : e0 ≤ v) (hvL : v ≤ eL) :
    ∃ j, binIdx es v = some j ∧ j < nBins es := by
  by_cases hveq : es.head? = some v
  · refine ⟨0, ?_, ?_⟩
    · rw [binIdx, if_pos hveq]
      have : ¬ ((1 : ℕ) = 0 ∨ 1 = es.length) := by omega
      rw [if_neg this]
    · rw [nBins]
      omega
  · have hne0 : e0 ≠ v := fun h => hveq (by rw [hh, h])
    have hlt0 : e0 < v := lt_of_le_of_ne hv0 hne0
    have h1t : 1 ≤ searchLeft es v := by
      cases es with
      | nil => cases hh
      | cons x rest =>
        have hx : x = e0 := by
          rw [List.head?_cons, Option.some_inj] at hh
          exact hh
        rw [searchLeft, List.takeWhile_cons, if_pos (by simpa [hx] using hlt0)]
        simp
    have htlen : searchLeft es v < es.length := by
      rcases Nat.lt_or_ge (searchLeft es v) es.length with h | h
      · exact h
      · exfalso
        have hle : searchLeft es v ≤ es.length :=
          (List.takeWhile_prefix _).length_le
        have heq : searchLeft es v = es.length := le_antisymm hle h
        have hall : es.takeWhile (fun e => decide (e < v)) = es :=
          (List.takeWhile_prefix _).eq_of_length heq
        have hmem : eL ∈ es.takeWhile (fun e => decide (e < v)) := by
          rw [hall]
          exact getLast?_mem_self hl
        have : eL < v := by simpa using List.mem_takeWhile_imp hmem
        exact absurd hvL (not_le.mpr this)
    refine ⟨searchLeft es v - 1, ?_, ?_⟩
    · rw [binIdx, if_neg hveq]
      have : ¬ (searchLeft es v = 0 ∨ searchLeft es v = es.length) := by omega
      rw [if_neg this]
    · rw [nBins]
      omega

theorem binIdx_pair {e0 eL v : ℚ} (h0 : e0 ≤ v) (hL : v ≤ eL) :
    binIdx [e0, eL] v = some 0 := by
  by_cases hv : v = e0
  · subst hv
    simp [binIdx]
  · have hlt : e0 < v := lt_of_le_of_ne h0 (Ne.symm hv)
    have hnlt : ¬ (eL < v) := not_lt.mpr hL
    have hne : ¬ (([e0, eL] : List ℚ).head? = some v) := by
      simp only [List.head?_cons, Option.some_inj]
      exact fun h => hv h.symm
    simp [binIdx, searchLeft, List.takeWhile_cons, hlt, hnlt, hne]

/-! ## Unfolding equations for `fit` -/

theorem fit_ok {ps : List ℚ} {ls : List ℤ} (h : ps.length = ls.length) (bins : ℕ) :
    fit ps ls bins false = Except.ok (fitResult ps ls bins) := by
  simp [fit, h]

theorem fit_mismatch {ps : List ℚ} {ls : List ℤ} (h : ps.length ≠ ls.length)
    (bins : ℕ) (rr : Bool) : fit ps ls bins rr = Except.error FitError.valueError := by
  simp [fit, h]

theorem fit_round_range {ps : List ℚ} {ls : List ℤ} {bins : ℕ}
    (h : ps.length = ls.length) (hne : (fitResult ps ls bins).table ≠ []) :
    fit ps ls bins true = Except.error FitError.typeError := by
  simp [fit, h, hne]

theorem fit_round_range_empty {ps : List ℚ} {ls : List ℤ} {bins : ℕ}
    (h : ps.length = ls.length) (hemp : (fitResult ps ls bins).table = []) :
    fit ps ls bins true = Except.ok (fitResult ps ls bins) := by
  simp [fit, h, hemp]

theorem fitResult_table (ps : List ℚ) (ls : List ℤ) (bins : ℕ) :
    (fitResult ps ls bins).table =
      mkTable (ps.zip ls) (fitEdges ps bins) ((ps.length : ℤ) - ls.sum) ls.sum := rfl

theorem fitResult_ks (ps : List ℚ) (ls : List ℤ) (bins : ℕ) :
    (fitResult ps ls bins).ks =
      pfMax ((fitResult ps ls bins).table.map Row.abs_difference) := rfl

theorem fitResult_obs (ps : List ℚ) (ls : List ℤ) (bins : ℕ) :
    (fitResult ps ls bins).obs = (ps.length : ℤ) := by
  show (ps.length : ℤ) - ls.sum + ls.sum = (ps.length : ℤ)
  ring

theorem fitResult_class0 (ps : List ℚ) (ls : List ℤ) (bins : ℕ) :
    (fitResult ps ls bins).class0 = (ps.length : ℤ) - ls.sum := rfl

theorem fitResult_class1 (ps : List ℚ) (ls : List ℤ) (bins : ℕ) :
    (fitResult ps ls bins).class1 = ls.sum := rfl

theorem mkTable_length (pts : List (ℚ × ℤ)) (es : List ℚ) (n0 n1 : ℤ) :
    (mkTable pts es n0 n1).length = nBins es := by
  simp [mkTable]

theorem mkTable_map_proj {β : Type} (pts : List (ℚ × ℤ)) (es : List ℚ) (n0 n1 : ℤ)
    (g : Row → β) :
    (mkTable pts es n0 n1).map g =
      (List.range (nBins es)).map (fun j => g (mkRow pts es n0 n1 j)) := by
  simp [mkTable]

theorem mem_mkTable {pts : List (ℚ × ℤ)} {es : List ℚ} {n0 n1 : ℤ} {b : Row} :
    b ∈ mkTable pts es n0 n1 ↔ ∃ j, j < nBins es ∧ mkRow pts es n0 n1 j = b := by
  rw [mkTable]
  exact mem_range_map

/-! ## Column sums over all bins -/

theorem sum_le_card (l : List ℤ) (h : ∀ x ∈ l, x ≤ 1) : l.sum ≤ (l.length : ℤ) := by
  induction l with
  | nil => simp
  | cons a t ih =>
    simp only [List.sum_cons, List.length_cons]
    have h1 : a ≤ 1 := h a (List.mem_cons_self a t)
    have h2 : t.sum ≤ (t.length : ℤ) := ih fun x hx => h x (List.mem_cons_of_mem a hx)
    push_cast
    linarith

theorem sum_eq_card (l : List ℤ) (h : ∀ x ∈ l, x = 1) : l.sum = (l.length : ℤ) := by
  induction l with
  | nil => simp
  | cons a t ih =>
    simp only [List.sum_cons, List.length_cons]
    rw [h a (List.mem_cons_self a t), ih fun x hx => h x (List.mem_cons_of_mem a hx)]
    push_cast
    ring

theorem sum_le_card_sub_one (l : List ℤ) (h0 : (0 : ℤ) ∈ l) (h1 : ∀ x ∈ l, x ≤ 1) :
    l.sum ≤ (l.length : ℤ) - 1 := by
  induction l with
  | nil => cases h0
  | cons a t ih =>
    simp only [List.sum_cons, List.length_cons]
    rcases List.mem_cons.mp h0 with ha | h0t
    · have h2 : t.sum ≤ (t.length : ℤ) :=
        sum_le_card t fun x hx => h1 x (List.mem_cons_of_mem a hx)
      rw [← ha]
      push_cast
      linarith
    · have h2 : t.sum ≤ (t.length : ℤ) - 1 :=
        ih h0t fun x hx => h1 x (List.mem_cons_of_mem a hx)
      have h3 : a ≤ 1 := h1 a (List.mem_cons_self a t)
      push_cast
      linarith

theorem listSum_sub (f g : ℕ → ℤ) (n : ℕ) :
    listSum (fun k => f k - g k) n = listSum f n - listSum g n := by
  induction n with
  | zero => rfl
  | succ m ih => rw [listSum_succ, listSum_succ, listSum_succ, ih]; ring

/-- Every observation lands in a bin, so the `size` column sums to the
number of observations. -/
theorem tot_sizeB {pts : List (ℚ × ℤ)} {es : List ℚ}
    (htot : ∀ p ∈ pts, ∃ j, binIdx es p.1 = some j ∧ j < nBins es) :
    listSum (sizeB pts es) (nBins es) = (pts.length : ℤ) := by
  have h := listSum_partition pts (fun p => binIdx es p.1) (nBins es) (fun _ => (1 : ℤ))
    htot
  calc listSum (sizeB pts es) (nBins es)
      = listSum (fun j =>
          ((pts.filter fun p => decide (binIdx es p.1 = some j)).map
            fun _ => (1 : ℤ)).sum) (nBins es) :=
        listSum_congr fun k _ => (map_one_sum (ptsInBin pts es k)).symm
    _ = (pts.map fun _ => (1 : ℤ)).sum := h
    _ = (pts.length : ℤ) := map_one_sum pts

theorem tot_class1B {pts : List (ℚ × ℤ)} {es : List ℚ}
    (htot : ∀ p ∈ pts, ∃ j, binIdx es p.1 = some j ∧ j < nBins es) :
    listSum (class1B pts es) (nBins es) = (pts.map Prod.snd).sum := by
  have h := listSum_partition pts (fun p => binIdx es p.1) (nBins es) Prod.snd htot
  exact (listSum_congr fun k _ => rfl).trans h

theorem tot_class0B {pts : List (ℚ × ℤ)} {es : List ℚ}
    (htot : ∀ p ∈ pts, ∃ j, binIdx es p.1 = some j ∧ j < nBins es) :
    listSum (class0B pts es) (nBins es) =
      (pts.length : ℤ) - (pts.map Prod.snd).sum := by
  have h : listSum (class0B pts es) (nBins es) =
      listSum (sizeB pts es) (nBins es) - listSum (class1B pts es) (nBins es) :=
    listSum_sub (sizeB pts es) (class1B pts es) (nBins es)
  rw [h, tot_sizeB htot, tot_class1B htot]

/-! ## Per-bin bounds coming from 0/1 labels -/

theorem sizeB_nonneg (pts : List (ℚ × ℤ)) (es : List ℚ) (j : ℕ) :
    0 ≤ sizeB pts es j := Int.ofNat_nonneg _

theorem class1B_nonneg {pts : List (ℚ × ℤ)} (es : List ℚ) (j : ℕ)
    (h : ∀ p ∈ pts, 0 ≤ p.2) : 0 ≤ class1B pts es j := by
  apply List.sum_nonneg
  intro x hx
  obtain ⟨p, hp, rfl⟩ := List.mem_map.mp hx
  exact h p (List.mem_of_mem_filter hp)

theorem class1B_le_sizeB {pts : List (ℚ × ℤ)} (es : List ℚ) (j : ℕ)
    (h : ∀ p ∈ pts, p.2 ≤ 1) : class1B pts es j ≤ sizeB pts es j := by
  have hs := sum_le_card ((ptsInBin pts es j).map Prod.snd) (by
    intro x hx
    obtain ⟨p, hp, rfl⟩ := List.mem_map.mp hx
    exact h p (List.mem_of_mem_filter hp))
  rw [List.length_map] at hs
  exact hs

theorem class0B_nonneg {pts : List (ℚ × ℤ)} (es : List ℚ) (j : ℕ)
    (h : ∀ p ∈ pts, p.2 ≤ 1) : 0 ≤ class0B pts es j :=
  sub_nonneg.mpr (class1B_le_sizeB es j h)

theorem class1B_of_all_zero {pts : List (ℚ × ℤ)} (es : List ℚ) (j : ℕ)
    (h : ∀ p ∈ pts, p.2 = 0) : class1B pts es j = 0 := by
  apply List.sum_eq_zero
  intro x hx
  obtain ⟨p, hp, rfl⟩ := List.mem_map.mp hx
  exact h p (List.mem_of_mem_filter hp)

theorem class1B_of_all_one {pts : List (ℚ × ℤ)} (es : List ℚ) (j : ℕ)
    (h : ∀ p ∈ pts, p.2 = 1) : class1B pts es j = sizeB pts es j := by
  have hs := sum_eq_card ((ptsInBin pts es j).map Prod.snd) (by
    intro x hx
    obtain ⟨p, hp, rfl⟩ := List.mem_map.mp hx
    exact h p (List.mem_of_mem_filter hp))
  rw [List.length_map] at hs
  exact hs

/-! ## Facts about the zipped observations and the class totals -/

theorem zip_snd_mem {ps : List ℚ} {ls : List ℤ} {p : ℚ × ℤ} (hp : p ∈ ps.zip ls) :
    p.2 ∈ ls := by
  obtain ⟨a, b⟩ := p
  exact (List.of_mem_zip hp).2

theorem zip_fst_mem {ps : List ℚ} {ls : List ℤ} {p : ℚ × ℤ} (hp : p ∈ ps.zip ls) :
    p.1 ∈ ps := by
  obtain ⟨a, b⟩ := p
  exact (List.of_mem_zip hp).1

theorem zip_length_eq {ps : List ℚ} {ls : List ℤ} (h : ps.length = ls.length) :
    (ps.zip ls).length = ps.length := by
  simp [h]

theorem zip_map_snd {ps : List ℚ} {ls : List ℤ} (h : ps.length = ls.length) :
    (ps.zip ls).map Prod.snd = ls :=
  List.map_snd_zip ps ls (le_of_eq h.symm)

theorem labels_nonneg {ls : List ℤ} (h : ∀ l ∈ ls, l = 0 ∨ l = 1) :
    ∀ l ∈ ls, 0 ≤ l := by
  intro l hl
  rcases h l hl with h' | h' <;> omega

theorem labels_le_one {ls : List ℤ} (h : ∀ l ∈ ls, l = 0 ∨ l = 1) :
    ∀ l ∈ ls, l ≤ 1 := by
  intro l hl
  rcases h l hl with h' | h' <;> omega

theorem n1_pos {ps : List ℚ} {ls : List ℤ} (hv : ValidInput ps ls) : 1 ≤ ls.sum := by
  obtain ⟨_, _, h01, _, h1⟩ := hv
  exact List.single_le_sum (labels_nonneg h01) 1 h1

theorem n0_pos {ps : List ℚ} {ls : List ℤ} (hv : ValidInput ps ls) :
    1 ≤ (ps.length : ℤ) - ls.sum := by
  obtain ⟨hlen, _, h01, h0, _⟩ := hv
  have hs : ls.sum ≤ (ls.length : ℤ) - 1 := sum_le_card_sub_one ls h0 (labels_le_one h01)
  have hc : (ps.length : ℤ) = (ls.length : ℤ) := by exact_mod_cast hlen
  linarith

/-- Under the claims' validity hypotheses, every observation is assigned to
a bin of the fitted table. -/
theorem fit_total {ps : List ℚ} (ls : List ℤ) {bins : ℕ} (hbins : 1 ≤ bins)
    (hne : ps ≠ []) (hnae : NotAllEqual ps) :
    ∀ p ∈ ps.zip ls, ∃ j, binIdx (fitEdges ps bins) p.1 = some j ∧
      j < nBins (fitEdges ps bins) := by
  obtain ⟨_, hlen2, _, e0, eL, hh, hl, _, hbound⟩ := fitEdges_spec hbins hne hnae
  intro p hp
  obtain ⟨h0, hL⟩ := hbound p.1 (zip_fst_mem hp)
  exact binIdx_total hh hl hlen2 h0 hL

/-! ## Row accessors -/

theorem mkRow_size (pts : List (ℚ × ℤ)) (es : List ℚ) (n0 n1 : ℤ) (j : ℕ) :
    (mkRow pts es n0 n1 j).size = sizeB pts es j := rfl

theorem mkRow_class0 (pts : List (ℚ × ℤ)) (es : List ℚ) (n0 n1 : ℤ) (j : ℕ) :
    (mkRow pts es n0 n1 j).class0 = class0B pts es j := rfl

theorem mkRow_class1 (pts : List (ℚ × ℤ)) (es : List ℚ) (n0 n1 : ℤ) (j : ℕ) :
    (mkRow pts es n0 n1 j).class1 = class1B pts es j := rfl

theorem mkRow_cum0 (pts : List (ℚ × ℤ)) (es : List ℚ) (n0 n1 : ℤ) (j : ℕ) :
    (mkRow pts es n0 n1 j).cumulative_class0 = listSum (class0B pts es) (j + 1) := rfl

theorem mkRow_cum1 (pts : List (ℚ × ℤ)) (es : List ℚ) (n0 n1 : ℤ) (j : ℕ) :
    (mkRow pts es n0 n1 j).cumulative_class1 = listSum (class1B pts es) (j + 1) := rfl

theorem mkRow_remT (pts : List (ℚ × ℤ)) (es : List ℚ) (n0 n1 : ℤ) (j : ℕ) :
    (mkRow pts es n0 n1 j).remainder_total =
      listSum (sizeB pts es) (nBins es) - listSum (sizeB pts es) j := rfl

theorem mkRow_rem0 (pts : List (ℚ × ℤ)) (es : List ℚ) (n0 n1 : ℤ) (j : ℕ) :
    (mkRow pts es n0 n1 j).remainder_class0 =
      listSum (class0B pts es) (nBins es) - listSum (class0B pts es) j := rfl

theorem mkRow_rem1 (pts : List (ℚ × ℤ)) (es : List ℚ) (n0 n1 : ℤ) (j : ℕ) :
    (mkRow pts es n0 n1 j).remainder_class1 =
      listSum (class1B pts es) (nBins es) - listSum (class1B pts es) j := rfl

theorem mkRow_absdiff (pts : List (ℚ × ℤ)) (es : List ℚ) (n0 n1 : ℤ) (j : ℕ) :
    (mkRow pts es n0 n1 j).abs_difference =
      PF.abs (PF.sub (pdiv ((listSum (class0B pts es) (j + 1) : ℚ)) ((n0 : ℚ)))
        (pdiv ((listSum (class1B pts es) (j + 1) : ℚ)) ((n1 : ℚ)))) := rfl

theorem mkRow_lower (pts : List (ℚ × ℤ)) (es : List ℚ) (n0 n1 : ℤ) (j : ℕ) :
    (mkRow pts es n0 n1 j).lower = es.getD j 0 := rfl

theorem mkRow_upper (pts : List (ℚ × ℤ)) (es : List ℚ) (n0 n1 : ℤ) (j : ℕ) :
    (mkRow pts es n0 n1 j).upper = es.getD (j + 1) 0 := rfl

/-! ## Claim theorems -/

/-- C1 (amended): for every valid input (equal-length nonempty vectors,
0/1 labels, both classes present) whose probabilities are not all equal,
`fit` succeeds and the result satisfies `sum(size) = total_observations`,
`sum(class0) = class0_count` and `sum(class1) = class1_count`.  (When all
probabilities are equal and `bins ≥ 2`, qcut collapses to a single cut
point and the table is empty, so the sums are `0 ≠ N`; see the
counterexample.) -/
theorem C1_fit_sums (ps : List ℚ) (ls : List ℤ) (bins : ℕ) (hv : ValidInput ps ls)
    (hnae : NotAllEqual ps) (hbins : 1 ≤ bins) :
    ∃ r, fit ps ls bins false = Except.ok r ∧
      (r.table.map Row.size).sum = r.obs ∧
      (r.table.map Row.class0).sum = r.class0 ∧
      (r.table.map Row.class1).sum = r.class1 := by
  obtain ⟨hlen, hne, h01, h0, h1⟩ := hv
  have htot := fit_total ls hbins hne hnae
  refine ⟨fitResult ps ls bins, fit_ok hlen bins, ?_, ?_, ?_⟩
  · rw [fitResult_table, mkTable_map_proj]
    simp only [mkRow_size]
    show listSum (sizeB (ps.zip ls) (fitEdges ps bins)) (nBins (fitEdges ps bins)) = _
    rw [tot_sizeB htot, zip_length_eq hlen, fitResult_obs]
  · rw [fitResult_table, mkTable_map_proj]
    simp only [mkRow_class0]
    show listSum (class0B (ps.zip ls) (fitEdges ps bins)) (nBins (fitEdges ps bins)) = _
    rw [tot_class0B htot, zip_length_eq hlen, zip_map_snd hlen, fitResult_class0]
  · rw [fitResult_table, mkTable_map_proj]
    simp only [mkRow_class1]
    show listSum (class1B (ps.zip ls) (fitEdges ps bins)) (nBins (fitEdges ps bins)) = _
    rw [tot_class1B htot, zip_map_snd hlen, fitResult_class1]

unseal Rat.add Rat.sub Rat.mul Rat.inv in
/-- C1 counterexample: the input `probabilities = [1/2, 1/2]`,
`labels = [0, 1]`, `bins = 10` is valid (both classes present), yet all
cut points collapse to the single value `1/2`, every observation is left
unbinned (pandas NaN category), the table is empty, and the `size` column
sums to `0` while `total_observations = 2`. -/
theorem C1_counterexample :
    ValidInput [(1 : ℚ)/2, 1/2] [0, 1] ∧
    (fit [(1 : ℚ)/2, 1/2] [0, 1] 10 false).map
      (fun r => ((r.table.map Row.size).sum, r.obs)) = Except.ok (0, 2) ∧
    (0 : ℤ) ≠ 2 := by
  refine ⟨by decide, by decide, by decide⟩

unseal Rat.add Rat.sub Rat.mul Rat.inv in
/-- C1 witness: the sums hold at the concrete valid input
`[1/10, 2/10, 8/10, 9/10]`, `[0, 0, 1, 1]`, `bins = 2`. -/
theorem C1_witness :
    ∃ r, fit [(1 : ℚ)/10, 2/10, 8/10, 9/10] [0, 0, 1, 1] 2 false = Except.ok r ∧
      (r.table.map Row.size).sum = r.obs ∧
      (r.table.map Row.class0).sum = r.class0 ∧
      (r.table.map Row.class1).sum = r.class1 :=
  C1_fit_sums _ _ 2 (by decide) (by decide) (by decide)

/-- C5 (code bug): for every valid input whose probabilities are not all
equal (so the result table is non-empty), calling `fit` with
`round_range = True` raises a `TypeError` instead of returning a table
with rounded ranges: line 88 calls `Series.apply` with the keyword
`axis=1`, which is forwarded to the one-argument lambda as soon as the
lambda is invoked on the non-empty `range` column.  No rounded ranges are
ever produced: even absent that error the rounded intervals of line 88
are computed but never assigned back, and on the empty-table inputs
(where `Series.apply` returns early and `fit` completes) there are no
ranges at all. -/
theorem C5_round_range_raises (ps : List ℚ) (ls : List ℤ) (bins : ℕ)
    (hv : ValidInput ps ls) (hnae : NotAllEqual ps) (hbins : 1 ≤ bins) :
    fit ps ls bins true = Except.error FitError.typeError := by
  obtain ⟨hlen, hne, h01, h0mem, h1mem⟩ := hv
  have hK1 : 1 ≤ nBins (fitEdges ps bins) := by
    obtain ⟨_, hlen2, _, _⟩ := fitEdges_spec hbins hne hnae
    rw [nBins]
    omega
  have hnet : (fitResult ps ls bins).table ≠ [] := by
    intro hc
    have hlc := congrArg List.length hc
    rw [fitResult_table, mkTable_length] at hlc
    simp at hlc
    omega
  exact fit_round_range hlen hnet

unseal Rat.add Rat.sub Rat.mul Rat.inv in
/-- C5 witness: the `round_range` failure at the concrete input
`[1/10, 2/10, 8/10, 9/10]`, `[0, 0, 1, 1]`, `bins = 2`, whose table has
two (non-empty) rows. -/
theorem C5_witness :
    fit [(1 : ℚ)/10, 2/10, 8/10, 9/10] [0, 0, 1, 1] 2 true =
      Except.error FitError.typeError :=
  C5_round_range_raises _ _ 2 (by decide) (by decide) (by decide)

/-- C6 (amended): mismatched input lengths make `fit` fail — but with the
pandas `ValueError` raised by the `pd.DataFrame` constructor (line 72),
not with a repository-defined `InvalidInputError` (the repository defines
no exception classes); no partial result is produced. -/
theorem C6_mismatch_raises (ps : List ℚ) (ls : List ℤ) (bins : ℕ) (rr : Bool)
    (h : ps.length ≠ ls.length) :
    fit ps ls bins rr = Except.error FitError.valueError :=
  fit_mismatch h bins rr

unseal Rat.add Rat.sub Rat.mul Rat.inv in
/-- C6 counterexample: at the concrete mismatched input `[1/2]`, `[0, 1]`
the error that escapes `fit` is the pandas `ValueError` from the
`DataFrame` constructor — the embedded error type has no
`InvalidInputError` because the repository never defines or raises one. -/
theorem C6_counterexample :
    fit [(1 : ℚ)/2] [0, 1] 10 false = Except.error FitError.valueError := by
  decide

unseal Rat.add Rat.sub Rat.mul Rat.inv in
/-- C6 witness: the amended claim at the concrete mismatched input
`[1/2, 1/3]`, `[0]`. -/
theorem C6_witness :
    fit [(1 : ℚ)/2, 1/3] [0] 10 false = Except.error FitError.valueError :=
  C6_mismatch_raises _ _ 10 false (by decide)

unseal Rat.add Rat.sub Rat.mul Rat.inv in
/-- C9 (confirmed): for probabilities `[0.1, 0.2, 0.8, 0.9]`, labels
`[0, 0, 1, 1]` and `bins = 2`, `fit` produces exactly two bins, each of
size 2, the first containing only class-0 observations and the second
only class-1 observations, and `ks_statistic = 1.0`. -/
theorem C9_perfect_separation :
    (fit [(1 : ℚ)/10, 2/10, 8/10, 9/10] [0, 0, 1, 1] 2 false).map
      (fun r => (r.table.map fun b => (b.size, b.class0, b.class1), r.ks)) =
    Except.ok ([((2 : ℤ), (2 : ℤ), (0 : ℤ)), (2, 0, 2)], PF.fin 1) := by
  decide

/-- C10 (confirmed): for every equal-length nonempty input with 0/1
labels, every row of the result table satisfies
`remainder_class0 + remainder_class1 = remainder_total`. -/
theorem C10_remainder_decomposition (ps : List ℚ) (ls : List ℤ) (bins : ℕ)
    (hlen : ps.length = ls.length) (hne : ps ≠ [])
    (h01 : ∀ l ∈ ls, l = 0 ∨ l = 1) :
    ∃ r, fit ps ls bins false = Except.ok r ∧
      ∀ b ∈ r.table, b.remainder_class0 + b.remainder_class1 = b.remainder_total := by
  refine ⟨fitResult ps ls bins, fit_ok hlen bins, ?_⟩
  intro b hb
  rw [fitResult_table] at hb
  obtain ⟨j, hj, rfl⟩ := mem_mkTable.mp hb
  rw [mkRow_rem0, mkRow_rem1, mkRow_remT]
  have hsum : ∀ m, listSum (class0B (ps.zip ls) (fitEdges ps bins)) m +
      listSum (class1B (ps.zip ls) (fitEdges ps bins)) m =
      listSum (sizeB (ps.zip ls) (fitEdges ps bins)) m := by
    intro m
    rw [← listSum_add]
    apply listSum_congr
    intro k _
    rw [class0B]
    ring
  have h1 := hsum (nBins (fitEdges ps bins))
  have h2 := hsum j
  linarith

unseal Rat.add Rat.sub Rat.mul Rat.inv in
/-- C10 witness: the remainder decomposition at the concrete input
`[1/10, 2/10, 8/10, 9/10]`, `[0, 1, 0, 1]`, `bins = 3`. -/
theorem C10_witness :
    ∃ r, fit [(1 : ℚ)/10, 2/10, 8/10, 9/10] [0, 1, 0, 1] 3 false = Except.ok r ∧
      ∀ b ∈ r.table, b.remainder_class0 + b.remainder_class1 = b.remainder_total :=
  C10_remainder_decomposition _ _ 3 (by decide) (by decide) (by decide)

theorem listSum_zero_fun (n : ℕ) : listSum (fun _ => (0 : ℤ)) n = 0 := by
  induction n with
  | zero => rfl
  | succ m ih => rw [listSum_succ, ih]; ring

theorem PF.sub_nan_left (x : PF) : PF.sub PF.nan x = PF.nan := by
  cases x <;> rfl

theorem PF.abs_nan : PF.abs PF.nan = PF.nan := rfl

/-- C4 (amended): for every equal-length input whose labels are all of one
class, `fit` performs no degeneracy check and raises nothing: it returns
normally, with every `abs_difference` entry equal to NaN (the cumulative
count of the absent class is divided by that class's zero total) and
`ks_statistic` equal to NaN.  Nothing in the repository documents this. -/
theorem C4_degenerate_nan (ps : List ℚ) (ls : List ℤ) (bins : ℕ)
    (hlen : ps.length = ls.length)
    (hcls : (∀ l ∈ ls, l = 0) ∨ (∀ l ∈ ls, l = 1)) :
    ∃ r, fit ps ls bins false = Except.ok r ∧ r.ks = PF.nan ∧
      ∀ b ∈ r.table, b.abs_difference = PF.nan := by
  have hrow : ∀ b ∈ (fitResult ps ls bins).table, b.abs_difference = PF.nan := by
    intro b hb
    rw [fitResult_table] at hb
    obtain ⟨j, hj, rfl⟩ := mem_mkTable.mp hb
    rw [mkRow_absdiff]
    rcases hcls with hz | ho
    · -- all labels zero: n1 = 0 and cumulative_class1 = 0
      have hn1 : ls.sum = 0 := List.sum_eq_zero hz
      have hc1 : listSum (class1B (ps.zip ls) (fitEdges ps bins)) (j + 1) = 0 :=
        calc listSum (class1B (ps.zip ls) (fitEdges ps bins)) (j + 1)
            = listSum (fun _ => (0 : ℤ)) (j + 1) :=
              listSum_congr fun k _ =>
                class1B_of_all_zero _ _ fun p hp => hz p.2 (zip_snd_mem hp)
          _ = 0 := listSum_zero_fun (j + 1)
      rw [hc1, hn1]
      norm_num [pdiv_zero_zero, PF.sub_nan_right, PF.abs_nan]
    · -- all labels one: n0 = 0 and cumulative_class0 = 0
      have hn1 : ls.sum = (ls.length : ℤ) := sum_eq_card ls ho
      have hn0 : (ps.length : ℤ) - ls.sum = 0 := by
        rw [hn1, hlen]
        ring
      have hc0 : listSum (class0B (ps.zip ls) (fitEdges ps bins)) (j + 1) = 0 :=
        calc listSum (class0B (ps.zip ls) (fitEdges ps bins)) (j + 1)
            = listSum (fun _ => (0 : ℤ)) (j + 1) :=
              listSum_congr fun k _ => by
                rw [class0B, class1B_of_all_one _ _ fun p hp => ho p.2 (zip_snd_mem hp)]
                ring
          _ = 0 := listSum_zero_fun (j + 1)
      rw [hc0, hn0]
      norm_num [pdiv_zero_zero, PF.sub_nan_left, PF.abs_nan]
  refine ⟨fitResult ps ls bins, fit_ok hlen bins, ?_, hrow⟩
  rw [fitResult_ks]
  apply pfMax_eq_nan
  intro x hx
  obtain ⟨b, hb, rfl⟩ := List.mem_map.mp hx
  exact hrow b hb

unseal Rat.add Rat.sub Rat.mul Rat.inv in
/-- C4 counterexample: at the concrete all-one-class input
`probabilities = [1/10, 9/10]`, `labels = [0, 0]`, `bins = 2`, `fit`
returns normally — no `DegenerateInputError` (no such error exists
anywhere in the repository) — and the KS statistic is silently NaN. -/
theorem C4_counterexample :
    (fit [(1 : ℚ)/10, 9/10] [0, 0] 2 false).map (fun r => r.ks) =
      Except.ok PF.nan := by
  decide

unseal Rat.add Rat.sub Rat.mul Rat.inv in
/-- C4 witness: the amended claim at the concrete input `[1/10, 9/10]`,
`[0, 0]`, `bins = 2`. -/
theorem C4_witness :
    ∃ r, fit [(1 : ℚ)/10, 9/10] [0, 0] 2 false = Except.ok r ∧ r.ks = PF.nan ∧
      ∀ b ∈ r.table, b.abs_difference = PF.nan :=
  C4_degenerate_nan _ _ 2 (by decide) (Or.inl (by decide))

theorem sortedProbs_bounds {ps : List ℚ} (hne : ps ≠ []) :
    ∀ v ∈ ps, (sortedProbs ps).getD 0 0 ≤ v ∧
      v ≤ (sortedProbs ps).getD ((sortedProbs ps).length - 1) 0 := by
  have hsne := sortedProbs_ne_nil hne
  have hss := sortedProbs_sorted ps
  intro v hv
  have hvs : v ∈ sortedProbs ps := mem_sortedProbs.mpr hv
  exact ⟨sorted_head_le hss (head?_eq_getD hsne) hvs,
    sorted_le_getLast hss (getLast?_eq_getD hsne) hvs⟩

/-- C7 (confirmed): for every valid input, `fit` with `bins = 1` yields a
table with exactly one bin containing all observations, whose
`abs_difference` is `0`, hence `ks_statistic = 0`.  (With `bins = 1` the
cut-point array has length 2, so pandas skips duplicate dropping — the
`len(bins) != 2` guard — and even an all-equal probability vector keeps
its single interval.) -/
theorem C7_single_bin (ps : List ℚ) (ls : List ℤ) (hv : ValidInput ps ls) :
    ∃ r, fit ps ls 1 false = Except.ok r ∧ r.table.length = 1 ∧
      (∀ b ∈ r.table, b.size = r.obs ∧ b.abs_difference = PF.fin 0) ∧
      r.ks = PF.fin 0 := by
  obtain ⟨hlen, hne, h01, h0mem, h1mem⟩ := hv
  have hsne := sortedProbs_ne_nil hne
  have hraw2 : (rawEdges ps 1).length = 2 := rawEdges_length ps 1
  have hfe : fitEdges ps 1 = rawEdges ps 1 := by rw [fitEdges, if_pos hraw2]
  obtain ⟨a, b, hab⟩ := eq_pair_of_length_two hraw2
  have hh : (rawEdges ps 1).head? = some ((sortedProbs ps).getD 0 0) := by
    rw [rawEdges_head?, quantile_zero]
  have hl : (rawEdges ps 1).getLast? =
      some ((sortedProbs ps).getD ((sortedProbs ps).length - 1) 0) := by
    rw [rawEdges_getLast? ps (le_refl 1), quantile_one hsne]
  have ha : a = (sortedProbs ps).getD 0 0 := by
    rw [hab] at hh
    simpa using hh
  have hbq : b = (sortedProbs ps).getD ((sortedProbs ps).length - 1) 0 := by
    rw [hab] at hl
    simpa using hl
  have hes : fitEdges ps 1 =
      [(sortedProbs ps).getD 0 0,
        (sortedProbs ps).getD ((sortedProbs ps).length - 1) 0] := by
    rw [hfe, hab, ha, hbq]
  have hbin : ∀ p ∈ ps.zip ls, binIdx (fitEdges ps 1) p.1 = some 0 := by
    intro p hp
    obtain ⟨hv0, hvL⟩ := sortedProbs_bounds hne p.1 (zip_fst_mem hp)
    rw [hes]
    exact binIdx_pair hv0 hvL
  have hfilter : ptsInBin (ps.zip ls) (fitEdges ps 1) 0 = ps.zip ls := by
    apply List.filter_eq_self.mpr
    intro p hp
    simpa using hbin p hp
  have hnb : nBins (fitEdges ps 1) = 1 := by rw [hes]; rfl
  have hn0 : 1 ≤ (ps.length : ℤ) - ls.sum := n0_pos ⟨hlen, hne, h01, h0mem, h1mem⟩
  have hn1 : 1 ≤ ls.sum := n1_pos ⟨hlen, hne, h01, h0mem, h1mem⟩
  have hsz : sizeB (ps.zip ls) (fitEdges ps 1) 0 = (ps.length : ℤ) := by
    rw [sizeB, hfilter, zip_length_eq hlen]
  have hc1 : class1B (ps.zip ls) (fitEdges ps 1) 0 = ls.sum := by
    rw [class1B, hfilter, zip_map_snd hlen]
  have habs : ∀ j, j < 1 →
      (mkRow (ps.zip ls) (fitEdges ps 1) ((ps.length : ℤ) - ls.sum) ls.sum j).abs_difference
        = PF.fin 0 := by
    intro j hj
    have hj0 : j = 0 := by omega
    subst hj0
    rw [mkRow_absdiff]
    have hcum0 : listSum (class0B (ps.zip ls) (fitEdges ps 1)) 1 =
        (ps.length : ℤ) - ls.sum := by
      rw [show (1 : ℕ) = 0 + 1 from rfl, listSum_succ, listSum_zero, class0B, hsz, hc1]
      ring
    have hcum1 : listSum (class1B (ps.zip ls) (fitEdges ps 1)) 1 = ls.sum := by
      rw [show (1 : ℕ) = 0 + 1 from rfl, listSum_succ, listSum_zero, hc1]
      ring
    have hq0 : (((ps.length : ℤ) - ls.sum : ℤ) : ℚ) ≠ 0 := by
      have : (0 : ℤ) < (ps.length : ℤ) - ls.sum := by omega
      exact_mod_cast ne_of_gt this
    have hq1 : ((ls.sum : ℤ) : ℚ) ≠ 0 := by
      have : (0 : ℤ) < ls.sum := by omega
      exact_mod_cast ne_of_gt this
    rw [show (0 : ℕ) + 1 = 1 from rfl, hcum0, hcum1,
      pdiv_of_ne_zero hq0, pdiv_of_ne_zero hq1, div_self hq0, div_self hq1]
    show PF.abs (PF.fin (1 - 1)) = PF.fin 0
    norm_num [PF.abs]
  refine ⟨fitResult ps ls 1, fit_ok hlen 1, ?_, ?_, ?_⟩
  · rw [fitResult_table, mkTable_length, hnb]
  · intro b hb
    rw [fitResult_table] at hb
    obtain ⟨j, hj, rfl⟩ := mem_mkTable.mp hb
    rw [hnb] at hj
    constructor
    · have hj0 : j = 0 := by omega
      subst hj0
      rw [mkRow_size, hsz, fitResult_obs]
    · exact habs j hj
  · rw [fitResult_ks, fitResult_table, mkTable_map_proj, hnb]
    rw [show List.range 1 = [0] from rfl, List.map_cons, List.map_nil]
    rw [habs 0 (by omega)]
    rfl

unseal Rat.add Rat.sub Rat.mul Rat.inv in
/-- C7 witness: the single-bin claim at the concrete all-equal valid input
`[1/2, 1/2]`, `[0, 1]` — exactly the case where duplicate quantile edges
would collapse for `bins ≥ 2` but are kept for `bins = 1`. -/
theorem C7_witness :
    ∃ r, fit [(1 : ℚ)/2, 1/2] [0, 1] 1 false = Except.ok r ∧ r.table.length = 1 ∧
      (∀ b ∈ r.table, b.size = r.obs ∧ b.abs_difference = PF.fin 0) ∧
      r.ks = PF.fin 0 :=
  C7_single_bin _ _ (by decide)

/-- C3 (amended): for every valid input whose probabilities are not all
equal, the `cumulative_class0` and `cumulative_class1` columns are
non-decreasing over the bins in ascending order, and their last entries
equal `class0_count` and `class1_count`.  (When all probabilities are
equal and `bins ≥ 2` the table is empty, so there is no last bin and the
cumulative counts never reach the class totals; see the counterexample.) -/
theorem C3_cumulative_monotone (ps : List ℚ) (ls : List ℤ) (bins : ℕ)
    (hv : ValidInput ps ls) (hnae : NotAllEqual ps) (hbins : 1 ≤ bins) :
    ∃ r, fit ps ls bins false = Except.ok r ∧
      List.Chain' (· ≤ ·) (r.table.map Row.cumulative_class0) ∧
      List.Chain' (· ≤ ·) (r.table.map Row.cumulative_class1) ∧
      (r.table.map Row.cumulative_class0).getLast? = some r.class0 ∧
      (r.table.map Row.cumulative_class1).getLast? = some r.class1 := by
  obtain ⟨hlen, hne, h01, h0mem, h1mem⟩ := hv
  have htot := fit_total ls hbins hne hnae
  have hK1 : 1 ≤ nBins (fitEdges ps bins) := by
    obtain ⟨_, hlen2, _, _⟩ := fitEdges_spec hbins hne hnae
    rw [nBins]
    omega
  have hc0nonneg : ∀ k, 0 ≤ class0B (ps.zip ls) (fitEdges ps bins) k := fun k =>
    class0B_nonneg _ _ fun p hp => labels_le_one h01 p.2 (zip_snd_mem hp)
  have hc1nonneg : ∀ k, 0 ≤ class1B (ps.zip ls) (fitEdges ps bins) k := fun k =>
    class1B_nonneg _ _ fun p hp => labels_nonneg h01 p.2 (zip_snd_mem hp)
  have hKrw : nBins (fitEdges ps bins) - 1 + 1 = nBins (fitEdges ps bins) := by omega
  refine ⟨fitResult ps ls bins, fit_ok hlen bins, ?_, ?_, ?_, ?_⟩
  · rw [fitResult_table, mkTable_map_proj]
    simp only [mkRow_cum0]
    apply chain'_range_map
    intro k _
    rw [listSum_succ _ (k + 1)]
    exact le_add_of_nonneg_right (hc0nonneg (k + 1))
  · rw [fitResult_table, mkTable_map_proj]
    simp only [mkRow_cum1]
    apply chain'_range_map
    intro k _
    rw [listSum_succ _ (k + 1)]
    exact le_add_of_nonneg_right (hc1nonneg (k + 1))
  · rw [fitResult_table, mkTable_map_proj]
    simp only [mkRow_cum0]
    rw [getLast?_range_map _ _ (by omega)]
    rw [hKrw, tot_class0B htot, zip_length_eq hlen, zip_map_snd hlen, fitResult_class0]
  · rw [fitResult_table, mkTable_map_proj]
    simp only [mkRow_cum1]
    rw [getLast?_range_map _ _ (by omega)]
    rw [hKrw, tot_class1B htot, zip_map_snd hlen, fitResult_class1]

unseal Rat.add Rat.sub Rat.mul Rat.inv in
/-- C3 counterexample: at the valid input `[2/3, 2/3]`, `[0, 1]`,
`bins = 10` the table is empty — the cumulative column has no last entry
(`getLast? = none`) while `class0_count = 1`, so the cumulative sequence
cannot end at the class total. -/
theorem C3_counterexample :
    ValidInput [(2 : ℚ)/3, 2/3] [0, 1] ∧
    (fit [(2 : ℚ)/3, 2/3] [0, 1] 10 false).map
      (fun r => ((r.table.map Row.cumulative_class0).getLast?, r.class0)) =
      Except.ok (none, 1) := by
  refine ⟨by decide, by decide⟩

unseal Rat.add Rat.sub Rat.mul Rat.inv in
/-- C3 witness: the amended claim at the concrete input
`[1/10, 2/10, 8/10, 9/10]`, `[0, 1, 0, 1]`, `bins = 2`. -/
theorem C3_witness :
    ∃ r, fit [(1 : ℚ)/10, 2/10, 8/10, 9/10] [0, 1, 0, 1] 2 false = Except.ok r ∧
      List.Chain' (· ≤ ·) (r.table.map Row.cumulative_class0) ∧
      List.Chain' (· ≤ ·) (r.table.map Row.cumulative_class1) ∧
      (r.table.map Row.cumulative_class0).getLast? = some r.class0 ∧
      (r.table.map Row.cumulative_class1).getLast? = some r.class1 :=
  C3_cumulative_monotone _ _ 2 (by decide) (by decide) (by decide)

theorem chain'_getD_lt {es : List ℚ} (h : List.Chain' (· < ·) es) {j : ℕ}
    (hj : j + 1 < es.length) (d d' : ℚ) : es.getD j d < es.getD (j + 1) d' := by
  rw [getD_of_lt es d (by omega), getD_of_lt es d' hj]
  exact List.chain'_iff_get.mp h j (by omega)

/-- C8 (amended): for every valid input whose probabilities are not all
equal, `fit` succeeds with at most `bins` resulting bins, strictly
increasing contiguous bin boundaries (`lower < upper` on every row,
each row's `upper` equal to the next row's `lower`), and every
observation assigned to exactly one bin (the assignment function yields
`some j` with `j` inside the table — at least one bin, and at most one
because the assignment is a function).  (When all probabilities are equal
and `bins ≥ 2` the table is empty and every observation is assigned to no
bin; see the counterexample.) -/
theorem C8_bins_structure (ps : List ℚ) (ls : List ℤ) (bins : ℕ)
    (hv : ValidInput ps ls) (hnae : NotAllEqual ps) (hbins : 1 ≤ bins) :
    ∃ r, fit ps ls bins false = Except.ok r ∧
      r.table.length ≤ bins ∧
      (∀ b ∈ r.table, b.lower < b.upper) ∧
      List.Chain' (fun x y => x.upper = y.lower) r.table ∧
      (∀ v ∈ ps, ∃ j, binIdx (fitEdges ps bins) v = some j ∧ j < r.table.length) := by
  obtain ⟨hlen, hne, h01, h0mem, h1mem⟩ := hv
  obtain ⟨hchain, hlen2, hlenle, e0, eL, hh, hl, hltE, hbound⟩ :=
    fitEdges_spec hbins hne hnae
  refine ⟨fitResult ps ls bins, fit_ok hlen bins, ?_, ?_, ?_, ?_⟩
  · rw [fitResult_table, mkTable_length, nBins]
    omega
  · intro b hb
    rw [fitResult_table] at hb
    obtain ⟨j, hj, rfl⟩ := mem_mkTable.mp hb
    rw [mkRow_lower, mkRow_upper]
    apply chain'_getD_lt hchain
    rw [nBins] at hj
    omega
  · rw [fitResult_table, mkTable]
    apply chain'_range_map
    intro k _
    rfl
  · intro v hv'
    obtain ⟨hv0, hvL⟩ := hbound v hv'
    obtain ⟨j, hjeq, hjlt⟩ := binIdx_total hh hl hlen2 hv0 hvL
    refine ⟨j, hjeq, ?_⟩
    rw [fitResult_table, mkTable_length]
    exact hjlt

unseal Rat.add Rat.sub Rat.mul Rat.inv in
/-- C8 counterexample: at the valid input `[1/2, 1/2]`, `[0, 1]`,
`bins = 10` (heavily repeated probabilities), `fit` succeeds but the
table has zero bins, and the observation `1/2` is assigned to no bin at
all (`binIdx = none`, the pandas NaN category) — not to exactly one bin. -/
theorem C8_counterexample :
    ValidInput [(1 : ℚ)/2, 1/2] [0, 1] ∧
    (fit [(1 : ℚ)/2, 1/2] [0, 1] 10 false).map (fun r => r.table.length) =
      Except.ok 0 ∧
    binIdx (fitEdges [(1 : ℚ)/2, 1/2] 10) ((1 : ℚ)/2) = none := by
  refine ⟨by decide, by decide, by decide⟩

unseal Rat.add Rat.sub Rat.mul Rat.inv in
/-- C8 witness: the amended claim at the concrete input
`[1/10, 2/10, 2/10, 9/10]`, `[0, 1, 1, 0]`, `bins = 3` (with a repeated
probability value). -/
theorem C8_witness :
    ∃ r, fit [(1 : ℚ)/10, 2/10, 2/10, 9/10] [0, 1, 1, 0] 3 false = Except.ok r ∧
      r.table.length ≤ 3 ∧
      (∀ b ∈ r.table, b.lower < b.upper) ∧
      List.Chain' (fun x y => x.upper = y.lower) r.table ∧
      (∀ v ∈ [(1 : ℚ)/10, 2/10, 2/10, 9/10], ∃ j,
        binIdx (fitEdges [(1 : ℚ)/10, 2/10, 2/10, 9/10] 3) v = some j ∧
          j < r.table.length) :=
  C8_bins_structure _ _ 3 (by decide) (by decide) (by decide)

/-- C2 (amended): for every valid input whose probabilities are not all
equal, the KS statistic is a finite value `q` in `[0, 1]`, attained as the
`abs_difference` of some bin and at least the `abs_difference` of every
bin — i.e. it is the maximum of the `abs_difference` column.  (When all
probabilities are equal and `bins ≥ 2` the column is empty and
`ks_statistic` is NaN, which lies in no interval; see the
counterexample.) -/
theorem C2_ks_max (ps : List ℚ) (ls : List ℤ) (bins : ℕ) (hv : ValidInput ps ls)
    (hnae : NotAllEqual ps) (hbins : 1 ≤ bins) :
    ∃ r, fit ps ls bins false = Except.ok r ∧
      ∃ q, r.ks = PF.fin q ∧ 0 ≤ q ∧ q ≤ 1 ∧
        (∃ b ∈ r.table, b.abs_difference = PF.fin q) ∧
        (∀ b ∈ r.table, ∀ p, b.abs_difference = PF.fin p → p ≤ q) := by
  obtain ⟨hlen, hne, h01, h0mem, h1mem⟩ := hv
  have htot := fit_total ls hbins hne hnae
  have hn0 : 1 ≤ (ps.length : ℤ) - ls.sum := n0_pos ⟨hlen, hne, h01, h0mem, h1mem⟩
  have hn1 : 1 ≤ ls.sum := n1_pos ⟨hlen, hne, h01, h0mem, h1mem⟩
  have hK1 : 1 ≤ nBins (fitEdges ps bins) := by
    obtain ⟨_, hlen2, _, _⟩ := fitEdges_spec hbins hne hnae
    rw [nBins]
    omega
  have hc0nonneg : ∀ k, 0 ≤ class0B (ps.zip ls) (fitEdges ps bins) k := fun k =>
    class0B_nonneg _ _ fun p hp => labels_le_one h01 p.2 (zip_snd_mem hp)
  have hc1nonneg : ∀ k, 0 ≤ class1B (ps.zip ls) (fitEdges ps bins) k := fun k =>
    class1B_nonneg _ _ fun p hp => labels_nonneg h01 p.2 (zip_snd_mem hp)
  have htot0 : listSum (class0B (ps.zip ls) (fitEdges ps bins)) (nBins (fitEdges ps bins)) =
      (ps.length : ℤ) - ls.sum := by
    rw [tot_class0B htot, zip_length_eq hlen, zip_map_snd hlen]
  have htot1 : listSum (class1B (ps.zip ls) (fitEdges ps bins)) (nBins (fitEdges ps bins)) =
      ls.sum := by
    rw [tot_class1B htot, zip_map_snd hlen]
  have hrow : ∀ j, j < nBins (fitEdges ps bins) → ∃ c, 0 ≤ c ∧ c ≤ 1 ∧
      (mkRow (ps.zip ls) (fitEdges ps bins) ((ps.length : ℤ) - ls.sum) ls.sum j).abs_difference
        = PF.fin c := by
    intro j hj
    have hcum0nn : 0 ≤ listSum (class0B (ps.zip ls) (fitEdges ps bins)) (j + 1) :=
      listSum_nonneg fun k _ => hc0nonneg k
    have hcum1nn : 0 ≤ listSum (class1B (ps.zip ls) (fitEdges ps bins)) (j + 1) :=
      listSum_nonneg fun k _ => hc1nonneg k
    have hcum0le : listSum (class0B (ps.zip ls) (fitEdges ps bins)) (j + 1) ≤
        (ps.length : ℤ) - ls.sum := by
      rw [← htot0]
      exact listSum_mono (by omega) fun k _ => hc0nonneg k
    have hcum1le : listSum (class1B (ps.zip ls) (fitEdges ps bins)) (j + 1) ≤ ls.sum := by
      rw [← htot1]
      exact listSum_mono (by omega) fun k _ => hc1nonneg k
    have hq0pos : (0 : ℚ) < (((ps.length : ℤ) - ls.sum : ℤ) : ℚ) := by
      exact_mod_cast (by omega : (0 : ℤ) < (ps.length : ℤ) - ls.sum)
    have hq1pos : (0 : ℚ) < ((ls.sum : ℤ) : ℚ) := by
      exact_mod_cast (by omega : (0 : ℤ) < ls.sum)
    have hx0 : (0 : ℚ) ≤
        ((listSum (class0B (ps.zip ls) (fitEdges ps bins)) (j + 1) : ℤ) : ℚ) /
          (((ps.length : ℤ) - ls.sum : ℤ) : ℚ) :=
      div_nonneg (by exact_mod_cast hcum0nn) (le_of_lt hq0pos)
    have hx1 : ((listSum (class0B (ps.zip ls) (fitEdges ps bins)) (j + 1) : ℤ) : ℚ) /
        (((ps.length : ℤ) - ls.sum : ℤ) : ℚ) ≤ 1 := by
      rw [div_le_one hq0pos]
      exact_mod_cast hcum0le
    have hy0 : (0 : ℚ) ≤
        ((listSum (class1B (ps.zip ls) (fitEdges ps bins)) (j + 1) : ℤ) : ℚ) /
          ((ls.sum : ℤ) : ℚ) :=
      div_nonneg (by exact_mod_cast hcum1nn) (le_of_lt hq1pos)
    have hy1 : ((listSum (class1B (ps.zip ls) (fitEdges ps bins)) (j + 1) : ℤ) : ℚ) /
        ((ls.sum : ℤ) : ℚ) ≤ 1 := by
      rw [div_le_one hq1pos]
      exact_mod_cast hcum1le
    refine ⟨|((listSum (class0B (ps.zip ls) (fitEdges ps bins)) (j + 1) : ℤ) : ℚ) /
        (((ps.length : ℤ) - ls.sum : ℤ) : ℚ) -
        ((listSum (class1B (ps.zip ls) (fitEdges ps bins)) (j + 1) : ℤ) : ℚ) /
        ((ls.sum : ℤ) : ℚ)|, abs_nonneg _, ?_, ?_⟩
    · apply abs_le.mpr
      constructor <;> linarith
    · rw [mkRow_absdiff, pdiv_of_ne_zero (ne_of_gt hq0pos), pdiv_of_ne_zero (ne_of_gt hq1pos)]
      rfl
  have hLform : (fitResult ps ls bins).table.map Row.abs_difference =
      (List.range (nBins (fitEdges ps bins))).map
        (fun j => (mkRow (ps.zip ls) (fitEdges ps bins)
          ((ps.length : ℤ) - ls.sum) ls.sum j).abs_difference) := by
    rw [fitResult_table, mkTable_map_proj]
  have hfin : ∀ x ∈ (fitResult ps ls bins).table.map Row.abs_difference,
      ∃ q, x = PF.fin q := by
    intro x hx
    rw [hLform] at hx
    obtain ⟨j, hj, rfl⟩ := mem_range_map.mp hx
    obtain ⟨c, _, _, hc⟩ := hrow j hj
    exact ⟨c, hc⟩
  have hneL : (fitResult ps ls bins).table.map Row.abs_difference ≠ [] := by
    rw [hLform]
    intro hc
    have := congrArg List.length hc
    rw [length_range_map] at this
    simp at this
    omega
  obtain ⟨q, hmax, hmem, hbd⟩ :=
    pfMax_fin_spec ((fitResult ps ls bins).table.map Row.abs_difference) hfin hneL
  have hqrange : 0 ≤ q ∧ q ≤ 1 := by
    rw [hLform] at hmem
    obtain ⟨j, hj, hjeq⟩ := mem_range_map.mp hmem
    obtain ⟨c, hc0, hc1, hc⟩ := hrow j hj
    rw [hc] at hjeq
    have : c = q := PF.fin.inj hjeq
    rw [← this]
    exact ⟨hc0, hc1⟩
  refine ⟨fitResult ps ls bins, fit_ok hlen bins, q, ?_, hqrange.1, hqrange.2, ?_, ?_⟩
  · rw [fitResult_ks]
    exact hmax
  · exact List.mem_map.mp hmem
  · intro b hb p hp
    exact hbd p (List.mem_map.mpr ⟨b, hb, hp⟩)

unseal Rat.add Rat.sub Rat.mul Rat.inv in
/-- C2 counterexample: at the valid input `[1/3, 1/3]`, `[0, 1]`,
`bins = 10` the table is empty and `ks_statistic` is NaN
(`Series.max()` of an empty column), which is not a finite value and in
particular does not lie in `[0, 1]`. -/
theorem C2_counterexample :
    ValidInput [(1 : ℚ)/3, 1/3] [0, 1] ∧
    (fit [(1 : ℚ)/3, 1/3] [0, 1] 10 false).map (fun r => r.ks) =
      Except.ok PF.nan ∧
    ∀ q : ℚ, PF.nan ≠ PF.fin q := by
  refine ⟨by decide, by decide, fun q hc => PF.noConfusion hc⟩

unseal Rat.add Rat.sub Rat.mul Rat.inv in
/-- C2 witness: the amended claim at the concrete input
`[1/10, 2/10, 8/10, 9/10]`, `[0, 1, 0, 1]`, `bins = 2`. -/
theorem C2_witness :
    ∃ r, fit [(1 : ℚ)/10, 2/10, 8/10, 9/10] [0, 1, 0, 1] 2 false = Except.ok r ∧
      ∃ q, r.ks = PF.fin q ∧ 0 ≤ q ∧ q ≤ 1 ∧
        (∃ b ∈ r.table, b.abs_difference = PF.fin q) ∧
        (∀ b ∈ r.table, ∀ p, b.abs_difference = PF.fin p → p ≤ q) :=
  C2_ks_max _ _ 2 (by decide) (by decide) (by decide)
